import Mathlib

/-
  Verification of the CoreGraphics rendering backend
  (src/ttk/backends/coregraphics_render.cpp).

  Shallow embedding conventions:
  - CGFloat values are modelled as exact rationals (ℚ).
  - C++ int is modelled as ℤ; uint32_t / size_t values as ℕ.
  - Native CoreGraphics / CoreText handles (CGColorRef, CTFontRef,
    CFDictionaryRef) are opaque reference-counted objects created by the
    host; they are modelled as natural-number handles drawn from a fresh
    counter, since the core only stores and compares them.
  - Python-supplied values (render_frame arguments) are modelled by the
    inductive type PyVal below.
-/

namespace TfmRender

/-- Geometry of a CoreGraphics rectangle (origin plus size), with CGFloat
modelled as ℚ. Mirrors CGRect as used by calculate_dirty_cells. -/
structure CGRect where
  x : ℚ
  y : ℚ
  width : ℚ
  height : ℚ
deriving DecidableEq

/-- Rectangular region of grid cells, rows and columns half-open.
Mirrors struct CellRect of coregraphics_render.cpp. -/
structure CellRect where
  start_row : ℤ
  end_row : ℤ
  start_col : ℤ
  end_col : ℤ
deriving DecidableEq

/-- Embedding of ttk_to_cg_y: converts a TTK row (top-left origin) to the
CoreGraphics y coordinate of the cell bottom edge. -/
def ttk_to_cg_y (row rows : ℤ) (char_height : ℚ) : ℚ :=
  ((rows - row - 1 : ℤ) : ℚ) * char_height

/-- Embedding of calculate_dirty_cells: maps a dirty rectangle given in
CoreGraphics pixel coordinates to the half-open cell region that must be
redrawn.  Column bounds use floor/ceil of the horizontal edges; row bounds
invert the vertical axis using rows minus ceil of the top edge and rows
minus floor of the bottom edge; all four are clamped and the row pair is
swapped into order. -/
def calculate_dirty_cells (dirty_rect : CGRect) (char_width char_height : ℚ)
    (rows cols : ℤ) (offset_x offset_y : ℚ) : CellRect :=
  let grid_x := dirty_rect.x - offset_x
  let grid_y := dirty_rect.y - offset_y
  let grid_right := grid_x + dirty_rect.width
  let grid_top := grid_y + dirty_rect.height
  let start_col0 := ⌊grid_x / char_width⌋
  let end_col0 := ⌈grid_right / char_width⌉
  let bottom_row := rows - ⌈grid_top / char_height⌉
  let top_row := rows - ⌊grid_y / char_height⌋
  let start_col := max 0 (min start_col0 cols)
  let end_col := max 0 (min end_col0 cols)
  let start_row := max 0 (min bottom_row rows)
  let end_row := max 0 (min top_row rows)
  if start_row > end_row then
    { start_row := end_row, end_row := start_row,
      start_col := start_col, end_col := end_col }
  else
    { start_row := start_row, end_row := end_row,
      start_col := start_col, end_col := end_col }

/-- Rounding as performed by C++ std::round: halfway cases away from zero. -/
def cppRound (q : ℚ) : ℤ :=
  if 0 ≤ q then ⌊q + 1/2⌋ else -⌊-q + 1/2⌋

/-- Row bounds as the specification describes them: both edges mapped via
rows - round(edge/char_h), ordered, then clamped to the interval 0..rows. -/
def specRowBounds (top_edge bottom_edge char_height : ℚ) (rows : ℤ) : ℤ × ℤ :=
  let a := rows - cppRound (top_edge / char_height)
  let b := rows - cppRound (bottom_edge / char_height)
  let lo := min a b
  let hi := max a b
  (max 0 (min lo rows), max 0 (min hi rows))

/-- Row bounds as the code actually computes them: top edge via rows minus
ceil, bottom edge via rows minus floor, clamped to 0..rows, then ordered. -/
def codeRowBounds (top_edge bottom_edge char_height : ℚ) (rows : ℤ) : ℤ × ℤ :=
  let a := max 0 (min (rows - ⌈top_edge / char_height⌉) rows)
  let b := max 0 (min (rows - ⌊bottom_edge / char_height⌋) rows)
  if a > b then (b, a) else (a, b)

/-- One background rectangle batch: position, size and packed RGB
background color.  Mirrors RectangleBatcher::RectBatch. -/
structure RectBatch where
  x : ℚ
  y : ℚ
  width : ℚ
  height : ℚ
  bg_rgb : ℕ
deriving DecidableEq

/-- State of the RectangleBatcher: the completed batches plus the batch
currently being accumulated, if any. -/
structure RectangleBatcher where
  batches : List RectBatch
  current_batch : Option RectBatch
deriving DecidableEq

/-- A batcher holding no batches at all, as produced by the constructor. -/
def RectangleBatcher.init : RectangleBatcher :=
  { batches := [], current_batch := none }

/-- Embedding of RectangleBatcher::add_cell.  Extends the open batch when
the cell is on the same row (epsilon 0.01), has the same color, and is
horizontally adjacent to the batch right edge (epsilon 0.01); otherwise
pushes the open batch and opens a new one. -/
def RectangleBatcher.add_cell (b : RectangleBatcher)
    (x y width height : ℚ) (bg_rgb : ℕ) : RectangleBatcher :=
  match b.current_batch with
  | some batch =>
    let same_row := |batch.y - y| < 1/100
    let same_color := batch.bg_rgb = bg_rgb
    let adjacent := |batch.x + batch.width - x| < 1/100
    if same_row ∧ same_color ∧ adjacent then
      { b with current_batch := some { batch with width := batch.width + width } }
    else
      { batches := b.batches ++ [batch],
        current_batch := some ⟨x, y, width, height, bg_rgb⟩ }
  | none =>
    { b with current_batch := some ⟨x, y, width, height, bg_rgb⟩ }

/-- Embedding of RectangleBatcher::finish_row: force-closes the open batch. -/
def RectangleBatcher.finish_row (b : RectangleBatcher) : RectangleBatcher :=
  match b.current_batch with
  | some batch => { batches := b.batches ++ [batch], current_batch := none }
  | none => b

/-- Embedding of RectangleBatcher::get_batches: the returned list is the
completed batches with any still-open batch flushed at the end. -/
def RectangleBatcher.get_batches (b : RectangleBatcher) : List RectBatch :=
  match b.current_batch with
  | some batch => b.batches ++ [batch]
  | none => b.batches

/-- One add_cell request, used to describe call sequences to the batcher. -/
structure BgCell where
  x : ℚ
  y : ℚ
  width : ℚ
  height : ℚ
  bg_rgb : ℕ
deriving DecidableEq

/-- Folds a sequence of add_cell calls over a batcher. -/
def runCells (b : RectangleBatcher) (cs : List BgCell) : RectangleBatcher :=
  cs.foldl (fun acc c => acc.add_cell c.x c.y c.width c.height c.bg_rgb) b

/-- The hypothesis of the batching claim: every cell sits at the running x
position (previous x plus previous width), on row y, with color bg. -/
def contiguousFrom (x y : ℚ) (bg : ℕ) : List BgCell → Prop
  | [] => True
  | c :: rest =>
    c.x = x ∧ c.y = y ∧ c.bg_rgb = bg ∧ contiguousFrom (x + c.width) y bg rest

/-- Sum of the widths of a list of add_cell requests. -/
def sumWidths (cs : List BgCell) : ℚ :=
  (cs.map BgCell.width).sum

/-
  Association lists model the std::unordered_map members of the caches.
  Keys are unique in every reachable state; operator square-bracket
  assignment is alist_set (update in place or append), erase is
  alist_erase (remove the entry with the key).
-/

/-- Lookup in an association list (std::unordered_map::find). -/
def alist_get : List (ℕ × ℕ) → ℕ → Option ℕ
  | [], _ => none
  | (k1, v) :: rest, k => if k1 = k then some v else alist_get rest k

/-- Assignment through operator square brackets: update the entry in place
if the key is present, otherwise append a new entry. -/
def alist_set : List (ℕ × ℕ) → ℕ → ℕ → List (ℕ × ℕ)
  | [], k, v => [(k, v)]
  | (k1, v1) :: rest, k, v =>
    if k1 = k then (k1, v) :: rest else (k1, v1) :: alist_set rest k v

/-- Erase the entry with the given key (std::unordered_map::erase). -/
def alist_erase : List (ℕ × ℕ) → ℕ → List (ℕ × ℕ)
  | [], _ => []
  | (k1, v1) :: rest, k =>
    if k1 = k then rest else (k1, v1) :: alist_erase rest k

/-- The LRU scan of ColorCache::get_color: iterate over the access-order
map keeping the entry with the strictly smallest access value.  The
sentinel (lru_key 0, min_access SIZE_MAX) is modelled by the none
accumulator. -/
def lru_fold (l : List (ℕ × ℕ)) : Option (ℕ × ℕ) :=
  l.foldl
    (fun best p =>
      match best with
      | none => some p
      | some q => if p.2 < q.2 then some p else some q)
    none

/-- Packing of 8-bit RGB components into the 24-bit cache key
(r shifted 16, g shifted 8, b). -/
def pack_rgb (r g b : ℕ) : ℕ :=
  r * 65536 + g * 256 + b

/-- State of the ColorCache.  Native CGColorRef handles are modelled as
naturals drawn from next_handle; cache maps packed RGB to handle and
access_order maps packed RGB to the access counter value. -/
structure ColorCacheState where
  cache : List (ℕ × ℕ)
  access_order : List (ℕ × ℕ)
  access_counter : ℕ
  max_size : ℕ
  next_handle : ℕ
deriving DecidableEq

/-- A freshly constructed ColorCache with the given maximum size. -/
def ColorCacheState.init (max_size : ℕ) : ColorCacheState :=
  { cache := [], access_order := [], access_counter := 0,
    max_size := max_size, next_handle := 0 }

/-- The LRU eviction step inside ColorCache::get_color: find the key with
the smallest access value (key 0 when the access map is empty) and, if it
is present in the cache, remove it from both maps. -/
def ColorCacheState.evict (s : ColorCacheState) : ColorCacheState :=
  let lru_key :=
    match lru_fold s.access_order with
    | some p => p.1
    | none => 0
  match alist_get s.cache lru_key with
  | some _ =>
    { s with cache := alist_erase s.cache lru_key,
             access_order := alist_erase s.access_order lru_key }
  | none => s

/-- Core of ColorCache::get_color on an already packed key: on a hit the
access order is refreshed; on a miss a new handle is created, the LRU entry
is evicted when the cache is full, and the new entry is inserted. -/
def ColorCacheState.get_color_key (s : ColorCacheState) (key : ℕ) :
    ℕ × ColorCacheState :=
  match alist_get s.cache key with
  | some color =>
    (color,
     { s with access_order := alist_set s.access_order key s.access_counter,
              access_counter := s.access_counter + 1 })
  | none =>
    let color := s.next_handle
    let s1 := if s.max_size ≤ s.cache.length then s.evict else s
    (color,
     { s1 with cache := alist_set s1.cache key color,
               access_order := alist_set s1.access_order key s.access_counter,
               access_counter := s.access_counter + 1,
               next_handle := s.next_handle + 1 })

/-- Embedding of ColorCache::get_color: packs the RGB components into the
24-bit key (the alpha argument is not part of the key; it only affects the
created native color). -/
def ColorCacheState.get_color (s : ColorCacheState) (r g b : ℕ) (alpha : ℚ) :
    ℕ × ColorCacheState :=
  s.get_color_key (pack_rgb r g b)

/-- Embedding of ColorCache::clear: releases every handle and resets both
maps and the counter. -/
def ColorCacheState.clear (s : ColorCacheState) : ColorCacheState :=
  { s with cache := [], access_order := [], access_counter := 0 }

/-- An operation on the ColorCache, for stating invariants over arbitrary
call sequences. -/
inductive ColorOp where
  | get (r g b : ℕ) (alpha : ℚ)
  | clear
deriving DecidableEq

/-- Applies a sequence of ColorCache operations. -/
def applyColorOps (s : ColorCacheState) (ops : List ColorOp) : ColorCacheState :=
  ops.foldl
    (fun s op =>
      match op with
      | ColorOp.get r g b a => (s.get_color r g b a).2
      | ColorOp.clear => s.clear)
    s

/-- Inserts a list of packed keys through get_color, discarding handles. -/
def insertKeys (s : ColorCacheState) (ks : List ℕ) : ColorCacheState :=
  ks.foldl (fun s k => (s.get_color_key k).2) s

/-- Association list pairing consecutive keys with counter values starting
at n; describes the cache and access maps after filling an empty cache. -/
def keyedFrom : List ℕ → ℕ → List (ℕ × ℕ)
  | [], _ => []
  | k :: ks, n => (k, n) :: keyedFrom ks (n + 1)

/-- Embedding of AttributeDictCache::make_key.  For a 32-bit int
font_attributes, the C++ mask with 0x7FFFFFFF keeps the low 31 bits of the
two's-complement pattern, which equals the integer modulo 2 to the 31; the
32-bit color occupies the low word and the underline flag bit 63.  The
color argument models a uint32_t (values below 2 to the 32). -/
def make_key (font_attributes : ℤ) (color_rgb : ℕ) (underline : Bool) : ℕ :=
  color_rgb + (font_attributes % 2147483648).toNat * 4294967296 +
    (if underline then 9223372036854775808 else 0)

/-- State of the AttributeDictCache.  The font and color sub-lookups and
the CFDictionary construction are native-boundary effects; the dictionary
handle is modelled as a fresh natural from next_handle. -/
structure AttributeDictCacheState where
  cache : List (ℕ × ℕ)
  hits : ℕ
  misses : ℕ
  next_handle : ℕ
deriving DecidableEq

/-- A freshly constructed AttributeDictCache. -/
def AttributeDictCacheState.init : AttributeDictCacheState :=
  { cache := [], hits := 0, misses := 0, next_handle := 0 }

/-- Embedding of AttributeDictCache::get_attributes: on a hit the cached
dictionary handle is returned and hits incremented; on a miss a new
dictionary is built, cached under the composite key, and misses
incremented. -/
def AttributeDictCacheState.get_attributes (s : AttributeDictCacheState)
    (font_attributes : ℤ) (color_rgb : ℕ) (underline : Bool) :
    ℕ × AttributeDictCacheState :=
  match alist_get s.cache (make_key font_attributes color_rgb underline) with
  | some d => (d, { s with hits := s.hits + 1 })
  | none =>
    (s.next_handle,
     { s with misses := s.misses + 1,
              cache := alist_set s.cache
                (make_key font_attributes color_rgb underline) s.next_handle,
              next_handle := s.next_handle + 1 })

/-- Applies a sequence of get_attributes calls, each given as the triple
(font_attributes, color_rgb, underline). -/
def applyTriples (s : AttributeDictCacheState)
    (ts : List (ℤ × ℕ × Bool)) : AttributeDictCacheState :=
  ts.foldl (fun s t => (s.get_attributes t.1 t.2.1 t.2.2).2) s

/-- Grid cell as parsed by parse_grid: UTF-16 code units of the character,
color pair id, attribute bits, and the wide flag.  Mirrors struct Cell. -/
structure Cell where
  character : List ℕ
  color_pair : ℤ
  attributes : ℤ
  is_wide : Bool
deriving DecidableEq

/-- A color pair entry: packed foreground and background RGB.  Mirrors
struct ColorPair. -/
structure ColorPair where
  fg_rgb : ℕ
  bg_rgb : ℕ
deriving DecidableEq

/-- Lookup of a color pair id in the parsed color-pair table
(std::unordered_map::find on the int key). -/
def lookupColorPair : List (ℤ × ColorPair) → ℤ → Option ColorPair
  | [], _ => none
  | (i, cp) :: rest, j => if i = j then some cp else lookupColorPair rest j

/-- Bit 0 of a two's-complement int (the C++ expression a & 1, used for
BOLD). -/
def testBit0 (a : ℤ) : Bool := decide (a % 2 = 1)

/-- Bit 1 of a two's-complement int (the C++ test (a & 2) != 0, used for
UNDERLINE). -/
def testBit1 (a : ℤ) : Bool := decide (2 ≤ a % 4)

/-- Bit 2 of a two's-complement int (the C++ test (a & 4) != 0, used for
REVERSE). -/
def testBit2 (a : ℤ) : Bool := decide (4 ≤ a % 8)

/-- Whether a cell text is a single variation selector (U+FE00..U+FE0F). -/
def isVariationSelector (c : List ℕ) : Bool :=
  match c with
  | [u] => decide (65024 ≤ u ∧ u ≤ 65039)
  | _ => false

/-- Embedding of the per-cell background action inside render_backgrounds:
empty cells, variation selectors and cells with an unknown color pair are
skipped (the batcher is untouched); otherwise the cell rectangle, possibly
extended at grid edges when padding exists, is pushed into the batcher. -/
def bgStep (cell : Cell) (row col rows cols : ℤ)
    (char_width char_height offset_x offset_y : ℚ)
    (color_pairs : List (ℤ × ColorPair)) (batcher : RectangleBatcher) :
    RectangleBatcher :=
  if cell.character = [] then batcher
  else if isVariationSelector cell.character = true then batcher
  else
    match lookupColorPair color_pairs cell.color_pair with
    | none => batcher
    | some colors =>
      let bg_rgb :=
        if testBit2 cell.attributes = true then colors.fg_rgb else colors.bg_rgb
      let y := ttk_to_cg_y row rows char_height + offset_y
      let x := (col : ℚ) * char_width + offset_x
      let base_cell_width := if cell.is_wide then char_width * 2 else char_width
      let has_padding := offset_x > 1/100 ∨ offset_y > 1/100
      let is_edge_row := row = 0 ∨ row = rows - 1
      let is_edge_col := col = 0 ∨ col = cols - 1
      if has_padding ∧ (is_edge_row ∨ is_edge_col) then
        let cell_x := if col = 0 then 0 else x
        let w1 := if col = 0 then base_cell_width + offset_x else base_cell_width
        let w2 := if col = cols - 1 then base_cell_width + offset_x else w1
        let h1 := if row = 0 then char_height + offset_y else char_height
        let cell_y := if row = rows - 1 then 0 else y
        let h2 := if row = rows - 1 then char_height + offset_y else h1
        batcher.add_cell cell_x cell_y w2 h2 bg_rgb
      else
        batcher.add_cell x y base_cell_width char_height bg_rgb

/-- A run of characters sharing row, attributes, color, underline and
resolved font.  Mirrors struct CharacterBatch. -/
structure CharacterBatch where
  text : List ℕ
  is_wide : List Bool
  font_attributes : ℤ
  fg_rgb : ℕ
  underline : Bool
  x : ℚ
  y : ℚ
  font_index : ℤ
deriving DecidableEq

/-- Loop state of render_characters: the open batch plus the batches drawn
so far (each draw_character_batch call appends to drawn). -/
structure CharRenderState where
  current_batch : Option CharacterBatch
  drawn : List CharacterBatch
deriving DecidableEq

/-- Drawing and dropping the open batch, as done whenever the loop skips a
cell or cannot extend the run. -/
def flushBatch (st : CharRenderState) : CharRenderState :=
  match st.current_batch with
  | some b => { current_batch := none, drawn := st.drawn ++ [b] }
  | none => st

/-- The expected x position loop of render_characters: steps one cell
width per UTF-16 code unit of the open batch, two for units flagged wide
(out-of-range positions count as narrow). -/
def expectedAdvance (text : List ℕ) (wides : List Bool) (char_width : ℚ) : ℚ :=
  ((List.range text.length).map
    (fun i => if wides.getD i false then char_width * 2 else char_width)).sum

/-- Embedding of the per-cell action of the render_characters loop.
Arguments: the cell, the peeked next cell (when inside the dirty region),
the color-pair table, the font-cascade resolution oracle resolve (the
combined code units and font attributes to the resolved index, -1 primary,
0 and up cascade, -2 unresolved; it stands for
get_font_index_for_character whose outcome depends on host fonts), grid
position and geometry, and the loop state.  Returns the new state plus
cols_to_skip. -/
def charStep (cell : Cell) (next_cell : Option Cell)
    (color_pairs : List (ℤ × ColorPair)) (resolve : List ℕ → ℤ → ℤ)
    (row col rows : ℤ) (char_width char_height offset_x offset_y : ℚ)
    (st : CharRenderState) : CharRenderState × ℕ :=
  if cell.character = [] then (flushBatch st, 0)
  else if cell.character = [32] ∧ testBit1 cell.attributes = false then
    (flushBatch st, 0)
  else
    let vsp : List ℕ × ℕ × Bool :=
      match next_cell with
      | some nc =>
        if isVariationSelector nc.character = true then
          (cell.character ++ nc.character, 1, true)
        else (cell.character, 0, false)
      | none => (cell.character, 0, false)
    let combined_char := vsp.1
    let cols_to_skip := vsp.2.1
    let has_vs := vsp.2.2
    match lookupColorPair color_pairs cell.color_pair with
    | none => (flushBatch st, 0)
    | some colors =>
      let fg_rgb :=
        if testBit2 cell.attributes = true then colors.bg_rgb else colors.fg_rgb
      let font_attributes := cell.attributes % 2
      let underline := testBit1 cell.attributes
      let y := ttk_to_cg_y row rows char_height + offset_y
      let x := (col : ℚ) * char_width + offset_x
      let font_index := resolve combined_char font_attributes
      if font_index = -2 then (flushBatch st, cols_to_skip)
      else
        match st.current_batch with
        | none =>
          ({ current_batch := some
              { text := combined_char,
                is_wide := [if has_vs then true else cell.is_wide],
                font_attributes := font_attributes, fg_rgb := fg_rgb,
                underline := underline, x := x, y := y,
                font_index := font_index },
             drawn := st.drawn }, cols_to_skip)
        | some batch =>
          let same_row := |batch.y - y| < 1/100
          let same_attributes := batch.font_attributes = font_attributes ∧
            batch.fg_rgb = fg_rgb ∧ batch.underline = underline
          let expected_x :=
            batch.x + expectedAdvance batch.text batch.is_wide char_width
          let adjacent := |expected_x - x| < 1/100
          let same_font := batch.font_index = font_index
          if same_row ∧ same_attributes ∧ adjacent ∧ same_font then
            ({ current_batch := some
                { batch with
                  text := batch.text ++ combined_char,
                  is_wide := batch.is_wide ++
                    [if has_vs then true else cell.is_wide] },
               drawn := st.drawn }, cols_to_skip)
          else
            ({ current_batch := some
                { text := combined_char,
                  is_wide := [if has_vs then true else cell.is_wide],
                  font_attributes := font_attributes, fg_rgb := fg_rgb,
                  underline := underline, x := x, y := y,
                  font_index := font_index },
               drawn := st.drawn ++ [batch] }, cols_to_skip)

/-- Python values as received by render_frame through the C API.  Strings
carry their UTF-16 code units; a Python bool passes PyLong_Check, so it is
a distinct constructor treated as an integer where integers are expected. -/
inductive PyVal where
  | pyInt (n : ℤ)
  | pyBool (b : Bool)
  | pyFloat (q : ℚ)
  | pyStr (s : List ℕ)
  | pyList (xs : List PyVal)
  | pyTuple (xs : List PyVal)
  | pyDict (entries : List (PyVal × PyVal))
  | pyNone

/-- PyList_Check. -/
def PyVal.isList : PyVal → Bool
  | PyVal.pyList _ => true
  | _ => false

/-- PyDict_Check. -/
def PyVal.isDict : PyVal → Bool
  | PyVal.pyDict _ => true
  | _ => false

/-- PyLong_Check plus PyLong_AsLong: integers and bools convert. -/
def asLong : PyVal → Option ℤ
  | PyVal.pyInt n => some n
  | PyVal.pyBool b => some (if b then 1 else 0)
  | _ => none

/-- PyFloat_Check or PyLong_Check, the dirty-rect component test. -/
def isNumber : PyVal → Bool
  | PyVal.pyFloat _ => true
  | PyVal.pyInt _ => true
  | PyVal.pyBool _ => true
  | _ => false

/-- PyObject_IsTrue with CPython truthiness. -/
def truthy : PyVal → Bool
  | PyVal.pyInt n => decide (n ≠ 0)
  | PyVal.pyBool b => b
  | PyVal.pyFloat q => decide (q ≠ 0)
  | PyVal.pyStr s => decide (s ≠ [])
  | PyVal.pyList xs => !xs.isEmpty
  | PyVal.pyTuple xs => !xs.isEmpty
  | PyVal.pyDict es => !es.isEmpty
  | PyVal.pyNone => false

/-- Traverses a list with a fallible parser, stopping at the first error
(the loops of parse_grid and parse_color_pairs). -/
def mapExcept {α β : Type} (f : α → Except String β) :
    List α → Except String (List β)
  | [] => Except.ok []
  | x :: xs =>
    match f x with
    | Except.ok y =>
      match mapExcept f xs with
      | Except.ok ys => Except.ok (y :: ys)
      | Except.error e => Except.error e
    | Except.error e => Except.error e

/-- Embedding of the per-cell validation of parse_grid: a cell must be a
4-tuple of a string, an integer color pair, integer attributes, and an
is_wide value converted by PyObject_IsTrue. -/
def parse_cell (v : PyVal) : Except String Cell :=
  match v with
  | PyVal.pyTuple [c, p, a, w] =>
    match c with
    | PyVal.pyStr s =>
      match asLong p with
      | some color_pair =>
        match asLong a with
        | some attrs => Except.ok ⟨s, color_pair, attrs, truthy w⟩
        | none => Except.error "Grid cell attributes must be an integer"
      | none => Except.error "Grid cell color pair must be an integer"
    | _ => Except.error "Grid cell character must be a string"
  | PyVal.pyTuple _ => Except.error "Grid cell must have 4 elements"
  | _ => Except.error "Grid cell must be a tuple"

/-- Embedding of the per-row validation of parse_grid. -/
def parse_row (v : PyVal) (expected_cols : ℤ) : Except String (List Cell) :=
  match v with
  | PyVal.pyList cells =>
    if (cells.length : ℤ) = expected_cols then mapExcept parse_cell cells
    else Except.error "Grid row column count mismatch"
  | _ => Except.error "Grid row must be a list"

/-- Embedding of parse_grid: the grid must be a list of expected_rows rows,
each a list of expected_cols valid cells. -/
def parse_grid (v : PyVal) (expected_rows expected_cols : ℤ) :
    Except String (List (List Cell)) :=
  match v with
  | PyVal.pyList rws =>
    if (rws.length : ℤ) = expected_rows then
      mapExcept (fun r => parse_row r expected_cols) rws
    else Except.error "Grid row count mismatch"
  | _ => Except.error "Grid must be a list"

/-- Embedding of the extract_rgb helper of parse_color_pairs: a 3-tuple of
integers, each in 0..255, packed as 0x00RRGGBB. -/
def parse_rgb (v : PyVal) : Except String ℕ :=
  match v with
  | PyVal.pyTuple [r, g, b] =>
    match asLong r, asLong g, asLong b with
    | some rv, some gv, some bv =>
      if 0 ≤ rv ∧ rv ≤ 255 ∧ 0 ≤ gv ∧ gv ≤ 255 ∧ 0 ≤ bv ∧ bv ≤ 255 then
        Except.ok (rv.toNat * 65536 + gv.toNat * 256 + bv.toNat)
      else Except.error "RGB component must be in range 0-255"
    | _, _, _ => Except.error "RGB component must be an integer"
  | _ => Except.error "Color must be an RGB tuple"

/-- One color-pair table value: a tuple of two RGB tuples. -/
def parse_color_pair_value (v : PyVal) : Except String ColorPair :=
  match v with
  | PyVal.pyTuple [fg, bg] =>
    match parse_rgb fg with
    | Except.ok f =>
      match parse_rgb bg with
      | Except.ok b => Except.ok ⟨f, b⟩
      | Except.error e => Except.error e
    | Except.error e => Except.error e
  | _ => Except.error "Color pair must be a tuple of 2 RGB tuples"

/-- Embedding of parse_color_pairs: a dictionary from integer ids to pairs
of RGB tuples. -/
def parse_color_pairs (v : PyVal) : Except String (List (ℤ × ColorPair)) :=
  match v with
  | PyVal.pyDict entries =>
    mapExcept
      (fun e =>
        match asLong e.1 with
        | some pair_id =>
          match parse_color_pair_value e.2 with
          | Except.ok cp => Except.ok (pair_id, cp)
          | Except.error err => Except.error err
        | none => Except.error "Color pair ID must be an integer")
      entries
  | _ => Except.error "Color pairs must be a dictionary"

/-- Whether a fallible step succeeded. -/
def exceptOk {α : Type} : Except String α → Bool
  | Except.ok _ => true
  | Except.error _ => false

/-- Embedding of the validation-and-parsing front half of render_frame, in
code order: null context, positive grid dimensions, the 10000 cap,
positive cell dimensions, grid is a list, color table is a dict, dirty
rect is a 4-tuple of numbers, then parse_grid and parse_color_pairs.  All
rendering comes after every one of these steps has succeeded. -/
def render_frame_validate (context : ℕ) (grid color_pairs dirty_rect : PyVal)
    (char_width char_height : ℚ) (rows cols : ℤ) : Except String Unit :=
  if context = 0 then
    Except.error "CGContext cannot be null"
  else if rows ≤ 0 ∨ cols ≤ 0 then
    Except.error "Grid dimensions must be positive"
  else if 10000 < rows ∨ 10000 < cols then
    Except.error "Grid dimensions too large"
  else if char_width ≤ 0 ∨ char_height ≤ 0 then
    Except.error "Character dimensions must be positive"
  else if grid.isList = false then
    Except.error "Grid must be a list"
  else if color_pairs.isDict = false then
    Except.error "Color pairs must be a dictionary"
  else
    match dirty_rect with
    | PyVal.pyTuple [a, b, c, d] =>
      if isNumber a ∧ isNumber b ∧ isNumber c ∧ isNumber d then
        match parse_grid grid rows cols with
        | Except.ok _ =>
          match parse_color_pairs color_pairs with
          | Except.ok _ => Except.ok ()
          | Except.error e => Except.error e
        | Except.error e => Except.error e
      else Except.error "Dirty rect component must be a number"
    | _ => Except.error "Dirty rect must be a tuple of 4 numbers"

/-- Specification predicate: a well-formed cell tuple. -/
def cellOK (v : PyVal) : Bool :=
  match v with
  | PyVal.pyTuple [PyVal.pyStr _, p, a, _] =>
    (asLong p).isSome && (asLong a).isSome
  | _ => false

/-- Specification predicate: a well-formed grid row of the given width. -/
def rowOK (v : PyVal) (cols : ℤ) : Bool :=
  match v with
  | PyVal.pyList cells =>
    decide ((cells.length : ℤ) = cols) && cells.all cellOK
  | _ => false

/-- Specification predicate: a well-formed grid of the given shape. -/
def gridOK (v : PyVal) (rows cols : ℤ) : Bool :=
  match v with
  | PyVal.pyList rws =>
    decide ((rws.length : ℤ) = rows) && rws.all (fun r => rowOK r cols)
  | _ => false

/-- Specification predicate: a well-formed RGB tuple. -/
def rgbOK (v : PyVal) : Bool :=
  match v with
  | PyVal.pyTuple [r, g, b] =>
    match asLong r, asLong g, asLong b with
    | some rv, some gv, some bv =>
      decide (0 ≤ rv ∧ rv ≤ 255 ∧ 0 ≤ gv ∧ gv ≤ 255 ∧ 0 ≤ bv ∧ bv ≤ 255)
    | _, _, _ => false
  | _ => false

/-- Specification predicate: a well-formed color-pair value. -/
def colorPairValOK (v : PyVal) : Bool :=
  match v with
  | PyVal.pyTuple [fg, bg] => rgbOK fg && rgbOK bg
  | _ => false

/-- Specification predicate: a well-formed color-pair table. -/
def colorPairsOK (v : PyVal) : Bool :=
  match v with
  | PyVal.pyDict entries =>
    entries.all (fun e => (asLong e.1).isSome && colorPairValOK e.2)
  | _ => false

/-- Specification predicate: a well-formed dirty rect (a 4-tuple of
numbers). -/
def dirtyRectOK (v : PyVal) : Bool :=
  match v with
  | PyVal.pyTuple [a, b, c, d] =>
    isNumber a && isNumber b && isNumber c && isNumber d
  | _ => false

/-
  ==========================================================================
  Theorems
  ==========================================================================
-/

/-- Rewriting the ceiling through the floor, used to evaluate the embedding
on concrete rational inputs. -/
lemma ceilAsFloor (a : ℚ) : ⌈a⌉ = -⌊-a⌋ := by
  rw [Int.floor_neg, neg_neg]

/-- Lookup misses exactly when the key is absent. -/
lemma alist_get_eq_none {l : List (ℕ × ℕ)} {k : ℕ} :
    alist_get l k = none ↔ k ∉ l.map Prod.fst := by
  induction l with
  | nil => simp [alist_get]
  | cons p rest ih =>
    obtain ⟨k1, v⟩ := p
    by_cases h : k1 = k <;> simp [alist_get, h, ih, Ne.symm]

/-- A successful lookup returns an entry of the list. -/
lemma alist_get_some_mem {l : List (ℕ × ℕ)} {k v : ℕ}
    (h : alist_get l k = some v) : (k, v) ∈ l := by
  induction l with
  | nil => simp [alist_get] at h
  | cons p rest ih =>
    obtain ⟨k1, v1⟩ := p
    by_cases hk : k1 = k
    · subst hk
      simp [alist_get] at h
      simp [h]
    · simp [alist_get, hk] at h
      simp [ih h]

/-- Setting an absent key appends the new entry. -/
lemma alist_set_fresh {l : List (ℕ × ℕ)} {k : ℕ} (v : ℕ)
    (h : alist_get l k = none) : alist_set l k v = l ++ [(k, v)] := by
  induction l with
  | nil => simp [alist_set]
  | cons p rest ih =>
    obtain ⟨k1, v1⟩ := p
    by_cases hk : k1 = k
    · simp [alist_get, hk] at h
    · simp [alist_get, hk] at h
      simp [alist_set, hk, ih h]

/-- Setting a present key keeps the key sequence unchanged. -/
lemma alist_set_keys_mem {l : List (ℕ × ℕ)} {k : ℕ} (v : ℕ)
    (h : k ∈ l.map Prod.fst) :
    (alist_set l k v).map Prod.fst = l.map Prod.fst := by
  induction l with
  | nil => simp at h
  | cons p rest ih =>
    obtain ⟨k1, v1⟩ := p
    by_cases hk : k1 = k
    · simp [alist_set, hk]
    · simp [hk, Ne.symm hk] at h
      simp [alist_set, hk, ih (by simpa using h)]

/-- Lookup at a different key is unaffected by alist_set. -/
lemma alist_get_set_ne {l : List (ℕ × ℕ)} {k k2 : ℕ} (v : ℕ) (h : k2 ≠ k) :
    alist_get (alist_set l k v) k2 = alist_get l k2 := by
  induction l with
  | nil => simp [alist_set, alist_get, Ne.symm h]
  | cons p rest ih =>
    obtain ⟨k1, v1⟩ := p
    by_cases hk : k1 = k
    · subst hk
      simp [alist_set, alist_get, h, Ne.symm h]
    · simp [alist_set, alist_get, hk, ih]

/-- Lookup at a different key is unaffected by alist_erase. -/
lemma alist_get_erase_ne {l : List (ℕ × ℕ)} {k k2 : ℕ} (h : k2 ≠ k) :
    alist_get (alist_erase l k) k2 = alist_get l k2 := by
  induction l with
  | nil => simp [alist_erase]
  | cons p rest ih =>
    obtain ⟨k1, v1⟩ := p
    by_cases hk : k1 = k
    · subst hk
      simp [alist_erase, alist_get, Ne.symm h]
    · simp [alist_erase, alist_get, hk, ih]

/-- Erasing the same key from two lists with the same key sequence yields
the same key sequence. -/
lemma alist_erase_keys_congr {l1 l2 : List (ℕ × ℕ)} {k : ℕ}
    (h : l1.map Prod.fst = l2.map Prod.fst) :
    (alist_erase l1 k).map Prod.fst = (alist_erase l2 k).map Prod.fst := by
  induction l1 generalizing l2 with
  | nil =>
    cases l2 with
    | nil => simp
    | cons q t => simp at h
  | cons p rest ih =>
    cases l2 with
    | nil => simp at h
    | cons q t =>
      obtain ⟨k1, v1⟩ := p
      obtain ⟨k2, v2⟩ := q
      simp only [List.map_cons, List.cons.injEq] at h
      obtain ⟨hk, ht⟩ := h
      subst hk
      by_cases hk1 : k1 = k
      · simp [alist_erase, hk1, ht]
      · simp [alist_erase, hk1, ih ht]

/-- Erasing a present key shortens the list by exactly one entry. -/
lemma alist_erase_length {l : List (ℕ × ℕ)} {k : ℕ}
    (h : k ∈ l.map Prod.fst) :
    (alist_erase l k).length + 1 = l.length := by
  induction l with
  | nil => simp at h
  | cons p rest ih =>
    obtain ⟨k1, v1⟩ := p
    by_cases hk : k1 = k
    · simp [alist_erase, hk]
    · simp [hk, Ne.symm hk] at h
      simp [alist_erase, hk, ih (by simpa using h)]

/-- Keys surviving an erase were keys before the erase. -/
lemma alist_erase_keys_sub {l : List (ℕ × ℕ)} {k k2 : ℕ}
    (h : k2 ∈ (alist_erase l k).map Prod.fst) : k2 ∈ l.map Prod.fst := by
  induction l with
  | nil => simp [alist_erase] at h
  | cons p rest ih =>
    obtain ⟨k1, v1⟩ := p
    by_cases hk : k1 = k
    · simp [alist_erase, hk] at h
      simp [h]
    · simp [alist_erase, hk] at h
      rcases h with h | h
      · simp [h]
      · simpa using Or.inr (by simpa using ih (by simpa using h))

/-- An entry with a different key survives alist_set. -/
lemma mem_alist_set_ne {l : List (ℕ × ℕ)} {k v : ℕ} {p : ℕ × ℕ}
    (hp : p ∈ l) (hne : p.1 ≠ k) : p ∈ alist_set l k v := by
  induction l with
  | nil => simp at hp
  | cons q rest ih =>
    obtain ⟨k1, v1⟩ := q
    by_cases hk : k1 = k
    · subst hk
      simp [alist_set]
      rcases List.mem_cons.mp hp with h | h
      · exact absurd (congrArg Prod.fst h) hne
      · simp [h]
    · simp [alist_set, hk]
      rcases List.mem_cons.mp hp with h | h
      · simp [h]
      · simp [ih h]

/-- With unique keys, the only entry alist_set leaves at the written key
carries the written value. -/
lemma alist_set_mem_key_eq {l : List (ℕ × ℕ)} {k v a : ℕ}
    (hnd : (l.map Prod.fst).Nodup) (h : (k, a) ∈ alist_set l k v) : a = v := by
  induction l with
  | nil => simpa [alist_set] using h
  | cons q rest ih =>
    obtain ⟨k1, v1⟩ := q
    simp only [List.map_cons, List.nodup_cons] at hnd
    obtain ⟨hk1, hrest⟩ := hnd
    by_cases hk : k1 = k
    · subst hk
      simp [alist_set] at h
      rcases h with h | h
      · exact h
      · exact absurd (List.mem_map_of_mem Prod.fst h) hk1
    · simp [alist_set, hk] at h
      rcases h with h | h
      · exact absurd h.1.symm hk
      · exact ih hrest h

/-- An alist_set result is never empty. -/
lemma alist_set_ne_nil {l : List (ℕ × ℕ)} {k v : ℕ} :
    alist_set l k v ≠ [] := by
  cases l with
  | nil => simp [alist_set]
  | cons q rest =>
    obtain ⟨k1, v1⟩ := q
    by_cases hk : k1 = k <;> simp [alist_set, hk]

/-- Once the scan holds an entry with access value zero it never changes
(the strict comparison cannot improve on zero). -/
lemma lru_fold_go_zero (l : List (ℕ × ℕ)) (k : ℕ) :
    l.foldl
      (fun best p =>
        match best with
        | none => some p
        | some q => if p.2 < q.2 then some p else some q)
      (some (k, 0)) = some (k, 0) := by
  induction l with
  | nil => rfl
  | cons c rest ih =>
    simpa [Nat.not_lt_zero] using ih

/-- The LRU scan started from the first entry of a zero-headed access map
returns that entry. -/
lemma lru_fold_cons_zero (k : ℕ) (rest : List (ℕ × ℕ)) :
    lru_fold ((k, 0) :: rest) = some (k, 0) := by
  simpa [lru_fold] using lru_fold_go_zero rest k

/-- The accumulator-generalised minimality property of the LRU scan. -/
lemma lru_fold_go_min (l : List (ℕ × ℕ)) :
    ∀ a : ℕ × ℕ, ∃ p : ℕ × ℕ,
      l.foldl
        (fun best p =>
          match best with
          | none => some p
          | some q => if p.2 < q.2 then some p else some q)
        (some a) = some p ∧
      (p = a ∨ p ∈ l) ∧ p.2 ≤ a.2 ∧ ∀ q ∈ l, p.2 ≤ q.2 := by
  induction l with
  | nil => exact fun a => ⟨a, rfl, Or.inl rfl, le_refl _, by simp⟩
  | cons c rest ih =>
    intro a
    by_cases hlt : c.2 < a.2
    · obtain ⟨p, hfold, hmem, hle, hall⟩ := ih c
      refine ⟨p, by simpa [hlt] using hfold, ?_, ?_, ?_⟩
      · rcases hmem with h | h
        · exact Or.inr (by simp [h])
        · exact Or.inr (by simp [h])
      · exact le_trans hle (le_of_lt hlt)
      · intro q hq
        rcases List.mem_cons.mp hq with h | h
        · exact h ▸ hle
        · exact hall q h
    · obtain ⟨p, hfold, hmem, hle, hall⟩ := ih a
      refine ⟨p, by simpa [hlt] using hfold, ?_, hle, ?_⟩
      · rcases hmem with h | h
        · exact Or.inl h
        · exact Or.inr (by simp [h])
      · intro q hq
        rcases List.mem_cons.mp hq with h | h
        · exact h ▸ le_trans hle (le_of_not_lt hlt)
        · exact hall q h

/-- On a nonempty access map the LRU scan returns an entry of the map whose
access value is minimal. -/
lemma lru_fold_spec {l : List (ℕ × ℕ)} (h : l ≠ []) :
    ∃ p, lru_fold l = some p ∧ p ∈ l ∧ ∀ q ∈ l, p.2 ≤ q.2 := by
  cases l with
  | nil => exact absurd rfl h
  | cons c rest =>
    obtain ⟨p, hfold, hmem, hle, hall⟩ := lru_fold_go_min rest c
    refine ⟨p, by simpa [lru_fold] using hfold, ?_, ?_⟩
    · rcases hmem with h | h
      · exact h ▸ List.mem_cons_self c rest
      · exact List.mem_cons_of_mem c h
    · intro q hq
      rcases List.mem_cons.mp hq with h | h
      · exact h ▸ hle
      · exact hall q h

/-- The key sequence of keyedFrom is the key list itself. -/
lemma keyedFrom_keys (ks : List ℕ) (n : ℕ) :
    (keyedFrom ks n).map Prod.fst = ks := by
  induction ks generalizing n with
  | nil => rfl
  | cons k rest ih => simp [keyedFrom, ih]

/-- Every entry of keyedFrom has access value below n plus the length. -/
lemma mem_keyedFrom_val_lt {ks : List ℕ} {n : ℕ} {p : ℕ × ℕ}
    (h : p ∈ keyedFrom ks n) : p.2 < n + ks.length := by
  induction ks generalizing n with
  | nil => simp [keyedFrom] at h
  | cons k rest ih =>
    simp only [keyedFrom, List.mem_cons] at h
    rcases h with h | h
    · simp [h]
    · have := ih h
      simp only [List.length_cons]
      omega

/-- A key of the list is looked up successfully in keyedFrom, with an
access value below n plus the length. -/
lemma keyedFrom_get_mem {ks : List ℕ} {k : ℕ} (n : ℕ) (h : k ∈ ks) :
    ∃ v, alist_get (keyedFrom ks n) k = some v ∧ v < n + ks.length := by
  induction ks generalizing n with
  | nil => simp at h
  | cons k1 rest ih =>
    by_cases hk : k1 = k
    · exact ⟨n, by simp [keyedFrom, alist_get, hk], by simp⟩
    · rcases List.mem_cons.mp h with h1 | h1
      · exact absurd h1.symm hk
      · obtain ⟨v, hv, hlt⟩ := ih (n + 1) h1
        exact ⟨v, by simp [keyedFrom, alist_get, hk, hv], by simp; omega⟩

/-- Filling a cache whose max size is not yet reached with fresh distinct
keys appends the corresponding entries to both maps and advances both
counters, with no eviction. -/
lemma insertKeys_fresh (ks : List ℕ) :
    ∀ s : ColorCacheState, ks.Nodup →
      (∀ k ∈ ks, alist_get s.cache k = none) →
      (∀ k ∈ ks, alist_get s.access_order k = none) →
      s.cache.length + ks.length ≤ s.max_size →
      insertKeys s ks =
        { s with cache := s.cache ++ keyedFrom ks s.next_handle,
                 access_order := s.access_order ++ keyedFrom ks s.access_counter,
                 access_counter := s.access_counter + ks.length,
                 next_handle := s.next_handle + ks.length } := by
  induction ks with
  | nil => intro s _ _ _ _; simp [insertKeys, keyedFrom]
  | cons k rest ih =>
    intro s hnd hc ha hlen
    have hck : alist_get s.cache k = none := hc k (by simp)
    have hak : alist_get s.access_order k = none := ha k (by simp)
    have hnoevict : ¬s.max_size ≤ s.cache.length := by
      simp only [List.length_cons] at hlen
      omega
    have hstep : insertKeys s (k :: rest)
        = insertKeys
            { s with cache := s.cache ++ [(k, s.next_handle)],
                     access_order := s.access_order ++ [(k, s.access_counter)],
                     access_counter := s.access_counter + 1,
                     next_handle := s.next_handle + 1 } rest := by
      show insertKeys (s.get_color_key k).2 rest = _
      simp only [ColorCacheState.get_color_key, hck, hnoevict, if_false,
        alist_set_fresh _ hck, alist_set_fresh _ hak]
    have hc2 : ∀ k2 ∈ rest, alist_get (s.cache ++ [(k, s.next_handle)]) k2 = none := by
      intro k2 hk2
      have hne : k2 ≠ k := fun h => (List.nodup_cons.mp hnd).1 (h ▸ hk2)
      have h2 := hc k2 (by simp [hk2])
      rw [alist_get_eq_none] at h2 ⊢
      simp [hne, h2]
    have ha2 : ∀ k2 ∈ rest, alist_get (s.access_order ++ [(k, s.access_counter)]) k2 = none := by
      intro k2 hk2
      have hne : k2 ≠ k := fun h => (List.nodup_cons.mp hnd).1 (h ▸ hk2)
      have h2 := ha k2 (by simp [hk2])
      rw [alist_get_eq_none] at h2 ⊢
      simp [hne, h2]
    have hlen2 : (s.cache ++ [(k, s.next_handle)]).length + rest.length ≤ s.max_size := by
      simp only [List.length_append, List.length_cons, List.length_nil] at hlen ⊢
      omega
    rw [hstep, ih _ (List.Nodup.of_cons hnd) hc2 ha2 hlen2]
    simp only [ColorCacheState.mk.injEq, keyedFrom, List.length_cons,
      List.append_assoc, List.singleton_append, List.cons_append,
      List.nil_append, true_and, and_true]
    omega

/-- Erasing the head key drops exactly the head entry. -/
lemma alist_erase_head (k v : ℕ) (rest : List (ℕ × ℕ)) :
    alist_erase ((k, v) :: rest) k = rest := by
  simp [alist_erase]

/-- The association list keyedFrom has one entry per key. -/
lemma keyedFrom_length (ks : List ℕ) (n : ℕ) :
    (keyedFrom ks n).length = ks.length := by
  induction ks generalizing n with
  | nil => rfl
  | cons k rest ih => simp [keyedFrom, ih]

/-- Filling an empty ColorCache of capacity equal to the number of distinct
keys yields both maps in insertion order with access values 0, 1, 2 and so
on. -/
lemma insertKeys_from_empty (ks : List ℕ) (hnd : ks.Nodup) :
    insertKeys (ColorCacheState.init ks.length) ks
      = { cache := keyedFrom ks 0, access_order := keyedFrom ks 0,
          access_counter := ks.length, max_size := ks.length,
          next_handle := ks.length } := by
  rw [insertKeys_fresh ks (ColorCacheState.init ks.length) hnd
      (fun k _ => rfl) (fun k _ => rfl) (by simp [ColorCacheState.init])]
  simp [ColorCacheState.init]

/-- C1: a dirty rect exactly covering the full pixel area of the grid maps
to the full cell region, and a dirty rect lying entirely outside the pixel
area of the grid maps to an empty range (equal start and end on rows or on
columns). -/
theorem c1_dirty_rect_full_cover_and_outside :
    (∀ (cw ch : ℚ) (rows cols : ℤ) (ox oy : ℚ),
      0 < cw → 0 < ch → 0 ≤ rows → 0 ≤ cols →
      calculate_dirty_cells ⟨ox, oy, (cols : ℚ) * cw, (rows : ℚ) * ch⟩
          cw ch rows cols ox oy
        = ⟨0, rows, 0, cols⟩) ∧
    (∀ (r : CGRect) (cw ch : ℚ) (rows cols : ℤ) (ox oy : ℚ),
      0 < cw → 0 < ch → 0 ≤ rows → 0 ≤ cols →
      0 ≤ r.width → 0 ≤ r.height →
      (r.x + r.width ≤ ox ∨ ox + (cols : ℚ) * cw ≤ r.x ∨
       r.y + r.height ≤ oy ∨ oy + (rows : ℚ) * ch ≤ r.y) →
      ((calculate_dirty_cells r cw ch rows cols ox oy).start_row =
         (calculate_dirty_cells r cw ch rows cols ox oy).end_row ∨
       (calculate_dirty_cells r cw ch rows cols ox oy).start_col =
         (calculate_dirty_cells r cw ch rows cols ox oy).end_col)) := by
  constructor
  · intro cw ch rows cols ox oy hcw hch hrows hcols
    simp only [calculate_dirty_cells, sub_self, zero_add, zero_div,
      Int.floor_zero, mul_div_cancel_right₀ _ hcw.ne',
      mul_div_cancel_right₀ _ hch.ne', Int.ceil_intCast]
    split <;> simp only [CellRect.mk.injEq] <;> omega
  · intro r cw ch rows cols ox oy hcw hch hrows hcols hw hh hcase
    simp only [calculate_dirty_cells]
    rcases hcase with h | h | h | h
    · -- entirely to the left of the grid
      have h1 : (r.x - ox) + r.width ≤ 0 := by linarith
      have h2 : ((r.x - ox) + r.width) / cw ≤ 0 :=
        div_nonpos_iff.mpr (Or.inr ⟨h1, hcw.le⟩)
      have h3 : ⌈((r.x - ox) + r.width) / cw⌉ ≤ 0 := by
        exact_mod_cast Int.ceil_le.mpr (by exact_mod_cast h2)
      have h4 : ⌊(r.x - ox) / cw⌋ ≤ ⌈((r.x - ox) + r.width) / cw⌉ :=
        le_trans (Int.floor_le_floor ((div_le_div_iff_of_pos_right hcw).mpr (by linarith)))
          (Int.floor_le_ceil _)
      split <;> simp only <;> omega
    · -- entirely to the right of the grid
      have h1 : (cols : ℚ) ≤ (r.x - ox) / cw :=
        (le_div_iff₀ hcw).mpr (by linarith)
      have h2 : cols ≤ ⌊(r.x - ox) / cw⌋ := Int.le_floor.mpr (by exact_mod_cast h1)
      have h3 : ⌊(r.x - ox) / cw⌋ ≤ ⌈((r.x - ox) + r.width) / cw⌉ :=
        le_trans (Int.floor_le_floor ((div_le_div_iff_of_pos_right hcw).mpr (by linarith)))
          (Int.floor_le_ceil _)
      split <;> simp only <;> omega
    · -- entirely below the grid
      have h1 : (r.y - oy) + r.height ≤ 0 := by linarith
      have h2 : ((r.y - oy) + r.height) / ch ≤ 0 :=
        div_nonpos_iff.mpr (Or.inr ⟨h1, hch.le⟩)
      have h3 : ⌈((r.y - oy) + r.height) / ch⌉ ≤ 0 := by
        exact_mod_cast Int.ceil_le.mpr (by exact_mod_cast h2)
      have h4 : ⌊(r.y - oy) / ch⌋ ≤ ⌈((r.y - oy) + r.height) / ch⌉ :=
        le_trans (Int.floor_le_floor ((div_le_div_iff_of_pos_right hch).mpr (by linarith)))
          (Int.floor_le_ceil _)
      split <;> simp only <;> omega
    · -- entirely above the grid
      have h1 : (rows : ℚ) ≤ (r.y - oy) / ch :=
        (le_div_iff₀ hch).mpr (by linarith)
      have h2 : rows ≤ ⌊(r.y - oy) / ch⌋ := Int.le_floor.mpr (by exact_mod_cast h1)
      have h3 : ⌊(r.y - oy) / ch⌋ ≤ ⌈((r.y - oy) + r.height) / ch⌉ :=
        le_trans (Int.floor_le_floor ((div_le_div_iff_of_pos_right hch).mpr (by linarith)))
          (Int.floor_le_ceil _)
      split <;> simp only <;> omega

/-- C1 witness: the theorem instantiated at a concrete 3 by 4 grid with cell
size 8 by 16 and offsets 5, 7. -/
theorem c1_dirty_rect_witness :
    calculate_dirty_cells ⟨5, 7, (4 : ℚ) * 8, (3 : ℚ) * 16⟩ 8 16 3 4 5 7
      = ⟨0, 3, 0, 4⟩ ∧
    ((calculate_dirty_cells ⟨200, 0, 1, 1⟩ 8 16 3 4 5 7).start_row =
       (calculate_dirty_cells ⟨200, 0, 1, 1⟩ 8 16 3 4 5 7).end_row ∨
     (calculate_dirty_cells ⟨200, 0, 1, 1⟩ 8 16 3 4 5 7).start_col =
       (calculate_dirty_cells ⟨200, 0, 1, 1⟩ 8 16 3 4 5 7).end_col) :=
  ⟨c1_dirty_rect_full_cover_and_outside.1 8 16 3 4 5 7 (by norm_num)
      (by norm_num) (by norm_num) (by norm_num),
   c1_dirty_rect_full_cover_and_outside.2 ⟨200, 0, 1, 1⟩ 8 16 3 4 5 7
      (by norm_num) (by norm_num) (by norm_num) (by norm_num) (by norm_num)
      (by norm_num) (by norm_num)⟩

/-- C2 counterexample: at dirty rect (0, 0, 100, 4) on a 10 by 10 grid of
10 by 10 cells with no offsets, the code computes start_row 9 (top edge
mapped through the ceiling), while the round-based formula of the claim
gives start_row 10; so the claim as stated is false at this input. -/
theorem c2_row_bounds_counterexample :
    (calculate_dirty_cells ⟨0, 0, 100, 4⟩ 10 10 10 10 0 0).start_row = 9 ∧
    (specRowBounds (0 + 4) 0 10 10).1 = 10 ∧ (9 : ℤ) ≠ 10 := by
  refine ⟨?_, ?_, by decide⟩ <;>
    norm_num [calculate_dirty_cells, specRowBounds, cppRound, ceilAsFloor]

/-- C2 amended: the row bounds are computed by mapping the top edge via
rows minus ceil(edge over char height) and the bottom edge via rows minus
floor(edge over char height), clamping both into 0..rows, and then ordering
so start_row is at most end_row. -/
theorem c2_row_bounds_amended :
    ∀ (rect : CGRect) (cw ch : ℚ) (rows cols : ℤ) (ox oy : ℚ),
      ((calculate_dirty_cells rect cw ch rows cols ox oy).start_row,
       (calculate_dirty_cells rect cw ch rows cols ox oy).end_row)
        = codeRowBounds (rect.y - oy + rect.height) (rect.y - oy) ch rows := by
  intro rect cw ch rows cols ox oy
  simp only [calculate_dirty_cells, codeRowBounds]
  split <;> rfl

/-- Helper for the batching claim: when the batcher has an open batch and
every subsequent cell is contiguous with it (same row, same color, x at the
running right edge), the fold only ever widens the open batch. -/
lemma runCells_extend (cs : List BgCell) :
    ∀ (cur : RectBatch) (batches : List RectBatch),
      contiguousFrom (cur.x + cur.width) cur.y cur.bg_rgb cs →
      runCells ⟨batches, some cur⟩ cs
        = ⟨batches, some { cur with width := cur.width + sumWidths cs }⟩ := by
  induction cs with
  | nil =>
    intro cur batches _
    simp [runCells, sumWidths]
  | cons c rest ih =>
    rintro cur batches ⟨hx, hy, hbg, hrest⟩
    have hcond : |cur.y - c.y| < 1/100 ∧ cur.bg_rgb = c.bg_rgb ∧
        |cur.x + cur.width - c.x| < 1/100 := by
      refine ⟨?_, hbg.symm, ?_⟩
      · rw [hy, sub_self, abs_zero]; norm_num
      · rw [hx, sub_self, abs_zero]; norm_num
    have hstep : runCells (⟨batches, some cur⟩ : RectangleBatcher) (c :: rest)
        = runCells ⟨batches, some { cur with width := cur.width + c.width }⟩ rest := by
      show runCells
          (RectangleBatcher.add_cell ⟨batches, some cur⟩ c.x c.y c.width c.height c.bg_rgb)
          rest = _
      simp only [RectangleBatcher.add_cell]
      rw [if_pos hcond]
    rw [hstep, ih { cur with width := cur.width + c.width } batches
        (by simpa [add_assoc] using hrest)]
    have : cur.width + c.width + sumWidths rest
        = cur.width + sumWidths (c :: rest) := by
      simp [sumWidths]; ring
    simp [this]

/-- C3: a nonempty sequence of add_cell calls all on the same row, with the
same background color, and each cell horizontally contiguous with the
previous one, produces exactly one output rectangle whose width is the sum
of the widths of the added cells. -/
theorem c3_batcher_merges_contiguous_run (c : BgCell) (cs : List BgCell)
    (h : contiguousFrom c.x c.y c.bg_rgb (c :: cs)) :
    (runCells RectangleBatcher.init (c :: cs)).get_batches
      = [⟨c.x, c.y, sumWidths (c :: cs), c.height, c.bg_rgb⟩] := by
  obtain ⟨hx, hy, hbg, hrest⟩ := h
  have h1 : runCells RectangleBatcher.init (c :: cs)
      = runCells ⟨[], some ⟨c.x, c.y, c.width, c.height, c.bg_rgb⟩⟩ cs := rfl
  rw [h1, runCells_extend cs ⟨c.x, c.y, c.width, c.height, c.bg_rgb⟩ [] hrest]
  simp [RectangleBatcher.get_batches, sumWidths]

/-- C3 witness: three contiguous cells of width 8, 8 and 4 on one row with
color 5 merge into the single rectangle of width 20. -/
theorem c3_batcher_witness :
    contiguousFrom 0 0 5 [⟨0, 0, 8, 16, 5⟩, ⟨8, 0, 8, 16, 5⟩, ⟨16, 0, 4, 16, 5⟩] ∧
    (runCells RectangleBatcher.init
        [⟨0, 0, 8, 16, 5⟩, ⟨8, 0, 8, 16, 5⟩, ⟨16, 0, 4, 16, 5⟩]).get_batches
      = [⟨0, 0, 20, 16, 5⟩] := by
  refine ⟨by norm_num [contiguousFrom], ?_⟩
  rw [c3_batcher_merges_contiguous_run ⟨0, 0, 8, 16, 5⟩
      [⟨8, 0, 8, 16, 5⟩, ⟨16, 0, 4, 16, 5⟩] (by norm_num [contiguousFrom])]
  norm_num [sumWidths]

/-- C9: the cell region returned by calculate_dirty_cells is always within
bounds, for every dirty rect including negative sizes and far-away rects;
consequently row-major loops over it only produce in-range indices. -/
theorem c9_dirty_cells_safety :
    ∀ (rect : CGRect) (cw ch : ℚ) (rows cols : ℤ) (ox oy : ℚ),
      0 ≤ rows → 0 ≤ cols →
      (0 ≤ (calculate_dirty_cells rect cw ch rows cols ox oy).start_row ∧
       (calculate_dirty_cells rect cw ch rows cols ox oy).start_row ≤
         (calculate_dirty_cells rect cw ch rows cols ox oy).end_row ∧
       (calculate_dirty_cells rect cw ch rows cols ox oy).end_row ≤ rows ∧
       0 ≤ (calculate_dirty_cells rect cw ch rows cols ox oy).start_col ∧
       (calculate_dirty_cells rect cw ch rows cols ox oy).start_col ≤ cols ∧
       0 ≤ (calculate_dirty_cells rect cw ch rows cols ox oy).end_col ∧
       (calculate_dirty_cells rect cw ch rows cols ox oy).end_col ≤ cols) ∧
      (∀ row col : ℤ,
        (calculate_dirty_cells rect cw ch rows cols ox oy).start_row ≤ row →
        row < (calculate_dirty_cells rect cw ch rows cols ox oy).end_row →
        (calculate_dirty_cells rect cw ch rows cols ox oy).start_col ≤ col →
        col < (calculate_dirty_cells rect cw ch rows cols ox oy).end_col →
        0 ≤ row ∧ row < rows ∧ 0 ≤ col ∧ col < cols) := by
  intro rect cw ch rows cols ox oy hrows hcols
  simp only [calculate_dirty_cells]
  split <;>
    refine ⟨by simp only; omega, fun row col h1 h2 h3 h4 => ?_⟩ <;>
    (simp only at h1 h2 h3 h4 ⊢; omega)

/-- C9 witness: the bounds at a concrete negative-size rect far outside a
3 by 4 grid. -/
theorem c9_dirty_cells_safety_witness :
    0 ≤ (calculate_dirty_cells ⟨-50, 900, -3, -7⟩ 8 16 3 4 5 7).start_row ∧
    (calculate_dirty_cells ⟨-50, 900, -3, -7⟩ 8 16 3 4 5 7).end_row ≤ 3 :=
  ⟨(c9_dirty_cells_safety ⟨-50, 900, -3, -7⟩ 8 16 3 4 5 7 (by norm_num)
      (by norm_num)).1.1,
   (c9_dirty_cells_safety ⟨-50, 900, -3, -7⟩ 8 16 3 4 5 7 (by norm_num)
      (by norm_num)).1.2.2.1⟩

/-- C4 counterexample: with max_size 1, insert color (1,2,3), re-access it,
then insert the distinct color (4,5,6).  The claim says the re-accessed
entry is not the one evicted, but the cache evicts it (it is the only, and
hence least-recently-accessed, entry): afterwards (1,2,3) is gone and only
(4,5,6) is cached. -/
theorem c4_lru_counterexample :
    alist_get (((((ColorCacheState.init 1).get_color 1 2 3 1).2.get_color
        1 2 3 1).2.get_color 4 5 6 1).2).cache (pack_rgb 1 2 3) = none ∧
    (((((ColorCacheState.init 1).get_color 1 2 3 1).2.get_color
        1 2 3 1).2.get_color 4 5 6 1).2).cache.map Prod.fst
      = [pack_rgb 4 5 6] := by
  constructor <;> rfl

/-- C4 amended: packing of distinct 8-bit colors is injective, so distinct
colors are distinct keys; inserting max_size plus one distinct keys into an
empty cache of capacity max_size (the length of ks) evicts exactly the
first, least-recently-accessed key; and when the cache holds at least two
entries, re-accessing a cached key before the extra insertion prevents its
eviction by that insertion. -/
theorem c4_lru_eviction_amended :
    (∀ r g b r2 g2 b2 : ℕ, r < 256 → g < 256 → b < 256 →
      r2 < 256 → g2 < 256 → b2 < 256 →
      pack_rgb r g b = pack_rgb r2 g2 b2 → r = r2 ∧ g = g2 ∧ b = b2) ∧
    (∀ (ks : List ℕ) (km : ℕ), ks ≠ [] → (ks ++ [km]).Nodup →
      (insertKeys (ColorCacheState.init ks.length) (ks ++ [km])).cache.map
          Prod.fst
        = ks.tail ++ [km]) ∧
    (∀ (ks : List ℕ) (km kj : ℕ), 2 ≤ ks.length → (ks ++ [km]).Nodup →
      kj ∈ ks →
      alist_get ((((insertKeys (ColorCacheState.init ks.length)
          ks).get_color_key kj).2.get_color_key km).2).cache kj ≠ none) := by
  refine ⟨?_, ?_, ?_⟩
  · intro r g b r2 g2 b2 h1 h2 h3 h4 h5 h6 h
    simp only [pack_rgb] at h
    omega
  · intro ks km hne hnd
    obtain ⟨hndks, hnd2, hdisj⟩ := List.nodup_append.mp hnd
    have hkmnot : km ∉ ks := fun h => hdisj h (by simp)
    cases ks with
    | nil => exact absurd rfl hne
    | cons k0 rest =>
      have hstep : insertKeys (ColorCacheState.init (k0 :: rest).length)
          ((k0 :: rest) ++ [km])
          = ((insertKeys (ColorCacheState.init (k0 :: rest).length)
              (k0 :: rest)).get_color_key km).2 := by
        simp [insertKeys]
      rw [hstep, insertKeys_from_empty _ hndks]
      have hmiss : alist_get (keyedFrom (k0 :: rest) 0) km = none :=
        alist_get_eq_none.mpr (by rw [keyedFrom_keys]; exact hkmnot)
      have hsize : (k0 :: rest).length ≤ (keyedFrom (k0 :: rest) 0).length := by
        rw [keyedFrom_length]
      have hlru : lru_fold (keyedFrom (k0 :: rest) 0) = some (k0, 0) := by
        simpa [keyedFrom] using lru_fold_cons_zero k0 (keyedFrom rest 1)
      have hk0 : alist_get (keyedFrom (k0 :: rest) 0) k0 = some 0 := by
        simp [keyedFrom, alist_get]
      have hkmrest : alist_get (keyedFrom rest 1) km = none :=
        alist_get_eq_none.mpr
          (by rw [keyedFrom_keys]; exact fun h => hkmnot (by simp [h]))
      simp only [ColorCacheState.get_color_key, hmiss, hsize, if_true,
        ColorCacheState.evict, hlru, hk0]
      rw [show keyedFrom (k0 :: rest) 0 = (k0, 0) :: keyedFrom rest 1 from rfl,
        alist_erase_head, alist_set_fresh _ hkmrest]
      simp [keyedFrom_keys]
  · intro ks km kj hlen hnd hkj
    obtain ⟨hndks, hnd2, hdisj⟩ := List.nodup_append.mp hnd
    have hkmnot : km ∉ ks := fun h => hdisj h (by simp)
    have hkjkm : kj ≠ km := fun h => hkmnot (h ▸ hkj)
    obtain ⟨v, hv, hvlt⟩ := keyedFrom_get_mem 0 hkj
    obtain ⟨p, hlru, hpmem, hpmin⟩ :=
      lru_fold_spec (show alist_set (keyedFrom ks 0) kj ks.length ≠ []
        from alist_set_ne_nil)
    obtain ⟨k1, hk1mem, hk1ne⟩ : ∃ k1 ∈ ks, k1 ≠ kj := by
      cases ks with
      | nil => simp at hlen
      | cons a rest =>
        cases rest with
        | nil => simp at hlen
        | cons b rest2 =>
          by_cases hakj : a = kj
          · have hab : a ≠ b := fun h =>
              (List.nodup_cons.mp hndks).1 (h ▸ List.mem_cons_self b rest2)
            exact ⟨b, by simp, fun hb => hab (hakj.trans hb.symm)⟩
          · exact ⟨a, by simp, hakj⟩
    obtain ⟨v1, hv1, hv1lt⟩ := keyedFrom_get_mem 0 hk1mem
    have hv1mem : ((k1, v1) : ℕ × ℕ) ∈ alist_set (keyedFrom ks 0) kj ks.length :=
      mem_alist_set_ne (alist_get_some_mem hv1) hk1ne
    have hpv : p.2 ≤ v1 := hpmin _ hv1mem
    have hkeysnd : ((keyedFrom ks 0).map Prod.fst).Nodup := by
      rw [keyedFrom_keys]; exact hndks
    have hpne : p.1 ≠ kj := by
      intro h
      obtain ⟨p1, p2⟩ := p
      simp only at h hpmem hpv ⊢
      subst h
      have := alist_set_mem_key_eq hkeysnd hpmem
      omega
    have hpkeys : p.1 ∈ (keyedFrom ks 0).map Prod.fst := by
      have h1 : p.1 ∈ (alist_set (keyedFrom ks 0) kj ks.length).map Prod.fst :=
        List.mem_map_of_mem Prod.fst hpmem
      rwa [alist_set_keys_mem _ (by rw [keyedFrom_keys]; exact hkj)] at h1
    obtain ⟨w, hw⟩ : ∃ w, alist_get (keyedFrom ks 0) p.1 = some w := by
      cases hcase : alist_get (keyedFrom ks 0) p.1 with
      | none => exact absurd (alist_get_eq_none.mp hcase) (by simp [hpkeys])
      | some w => exact ⟨w, rfl⟩
    have hmiss : alist_get (keyedFrom ks 0) km = none :=
      alist_get_eq_none.mpr (by rw [keyedFrom_keys]; exact hkmnot)
    have hsize : ks.length ≤ (keyedFrom ks 0).length := by
      rw [keyedFrom_length]
    rw [insertKeys_from_empty _ hndks]
    simp only [ColorCacheState.get_color_key, ColorCacheState.evict,
      hv, hmiss, hsize, if_true, hlru, hw]
    rw [alist_get_set_ne _ hkjkm, alist_get_erase_ne (Ne.symm hpne), hv]
    simp

/-- C4 witness: with capacity 2, inserting keys 10 and 20, then key 30,
evicts exactly key 10; and after re-accessing key 10 the extra insertion
does not evict it. -/
theorem c4_lru_eviction_witness :
    (insertKeys (ColorCacheState.init 2) [10, 20, 30]).cache.map Prod.fst
        = [20, 30] ∧
    alist_get ((((insertKeys (ColorCacheState.init 2)
        [10, 20]).get_color_key 10).2.get_color_key 30).2).cache 10 ≠ none := by
  constructor
  · exact c4_lru_eviction_amended.2.1 [10, 20] 30 (by simp) (by simp)
  · exact c4_lru_eviction_amended.2.2 [10, 20] 30 10 (by simp) (by simp) (by simp)

/-- One get_color step preserves the ColorCache invariants: the two maps
hold the same key sequence, the cache size stays within max_size, and
max_size itself is unchanged.  Requires capacity at least one so that the
eviction step always finds an entry to remove. -/
lemma get_color_key_preserves (s : ColorCacheState) (k : ℕ)
    (hkeys : s.cache.map Prod.fst = s.access_order.map Prod.fst)
    (hlen : s.cache.length ≤ s.max_size) (hmax : 1 ≤ s.max_size) :
    ((s.get_color_key k).2).cache.map Prod.fst
        = ((s.get_color_key k).2).access_order.map Prod.fst ∧
    ((s.get_color_key k).2).cache.length ≤ s.max_size ∧
    ((s.get_color_key k).2).max_size = s.max_size := by
  cases hc : alist_get s.cache k with
  | some v =>
    have hmem : k ∈ s.cache.map Prod.fst :=
      List.mem_map_of_mem _ (alist_get_some_mem hc)
    simp only [ColorCacheState.get_color_key, hc]
    refine ⟨?_, hlen, trivial⟩
    rw [alist_set_keys_mem _ (hkeys ▸ hmem)]
    exact hkeys
  | none =>
    by_cases hevict : s.max_size ≤ s.cache.length
    · have hlencache : 1 ≤ s.cache.length := le_trans hmax hevict
      have hlenacc : s.access_order.length = s.cache.length := by
        have := congrArg List.length hkeys
        simpa using this.symm
      have hane : s.access_order ≠ [] := by
        cases hacc : s.access_order with
        | nil => rw [hacc] at hlenacc; simp at hlenacc; omega
        | cons q t => simp
      obtain ⟨p, hlru, hpmem, hpmin⟩ := lru_fold_spec hane
      have hpkc : p.1 ∈ s.cache.map Prod.fst := by
        rw [hkeys]; exact List.mem_map_of_mem _ hpmem
      obtain ⟨w, hw⟩ : ∃ w, alist_get s.cache p.1 = some w := by
        cases hcase : alist_get s.cache p.1 with
        | none => exact absurd (alist_get_eq_none.mp hcase) (by simp [hpkc])
        | some w => exact ⟨w, rfl⟩
      have hknotc : k ∉ s.cache.map Prod.fst := alist_get_eq_none.mp hc
      have hkc2 : alist_get (alist_erase s.cache p.1) k = none :=
        alist_get_eq_none.mpr (fun hmem => hknotc (alist_erase_keys_sub hmem))
      have hka2 : alist_get (alist_erase s.access_order p.1) k = none :=
        alist_get_eq_none.mpr
          (fun hmem => hknotc (by rw [hkeys]; exact alist_erase_keys_sub hmem))
      simp only [ColorCacheState.get_color_key, hc, hevict, if_true,
        ColorCacheState.evict, hlru, hw]
      rw [alist_set_fresh _ hkc2, alist_set_fresh _ hka2]
      refine ⟨?_, ?_, trivial⟩
      · simp only [List.map_append]
        rw [alist_erase_keys_congr hkeys]
        simp
      · have := alist_erase_length hpkc
        simp only [List.length_append, List.length_cons, List.length_nil]
        omega
    · have hknotc : k ∉ s.cache.map Prod.fst := alist_get_eq_none.mp hc
      have hka : alist_get s.access_order k = none :=
        alist_get_eq_none.mpr (fun hmem => hknotc (by rw [hkeys]; exact hmem))
      simp only [ColorCacheState.get_color_key, hc, hevict, if_false]
      rw [alist_set_fresh _ hc, alist_set_fresh _ hka]
      refine ⟨?_, ?_, trivial⟩
      · simp [hkeys]
      · simp only [List.length_append, List.length_cons, List.length_nil]
        omega

/-- The ColorCache invariants are preserved by arbitrary operation
sequences. -/
lemma applyColorOps_inv (ops : List ColorOp) :
    ∀ s : ColorCacheState,
      s.cache.map Prod.fst = s.access_order.map Prod.fst →
      s.cache.length ≤ s.max_size → 1 ≤ s.max_size →
      ((applyColorOps s ops).cache.map Prod.fst
          = (applyColorOps s ops).access_order.map Prod.fst ∧
       (applyColorOps s ops).cache.length ≤ s.max_size ∧
       (applyColorOps s ops).max_size = s.max_size) := by
  induction ops with
  | nil => exact fun s h1 h2 _ => ⟨h1, h2, rfl⟩
  | cons op rest ih =>
    intro s h1 h2 h3
    cases op with
    | get r g b a =>
      obtain ⟨ha, hb, hc⟩ :=
        get_color_key_preserves s (pack_rgb r g b) h1 h2 h3
      have happ : applyColorOps s (ColorOp.get r g b a :: rest)
          = applyColorOps ((s.get_color_key (pack_rgb r g b)).2) rest := rfl
      rw [happ]
      obtain ⟨ia, ib, ic⟩ := ih _ ha (by rw [hc]; exact hb) (by rw [hc]; exact h3)
      rw [hc] at ib ic
      exact ⟨ia, ib, ic⟩
    | clear =>
      have happ : applyColorOps s (ColorOp.clear :: rest)
          = applyColorOps s.clear rest := rfl
      rw [happ]
      exact ih _ (by simp [ColorCacheState.clear])
        (by simp [ColorCacheState.clear]) h3

/-- C10: for every ColorCache with capacity at least 1, after any sequence
of get_color and clear operations the number of cached entries never
exceeds max_size, and the cache map and LRU access-order map always hold
exactly the same keys. -/
theorem c10_colorcache_invariants (max_size : ℕ) (h : 1 ≤ max_size)
    (ops : List ColorOp) :
    (applyColorOps (ColorCacheState.init max_size) ops).cache.length ≤ max_size ∧
    (applyColorOps (ColorCacheState.init max_size) ops).cache.map Prod.fst
      = (applyColorOps (ColorCacheState.init max_size) ops).access_order.map
          Prod.fst := by
  obtain ⟨h1, h2, h3⟩ :=
    applyColorOps_inv ops (ColorCacheState.init max_size) rfl
      (by simp [ColorCacheState.init]) h
  exact ⟨h2, h1⟩

/-- C10 witness: a concrete run with capacity 1 that hits, misses, evicts
and clears. -/
theorem c10_colorcache_invariants_witness :
    (applyColorOps (ColorCacheState.init 1)
        [ColorOp.get 1 2 3 1, ColorOp.get 4 5 6 1, ColorOp.clear,
         ColorOp.get 7 8 9 1]).cache.length ≤ 1 ∧
    (applyColorOps (ColorCacheState.init 1)
        [ColorOp.get 1 2 3 1, ColorOp.get 4 5 6 1, ColorOp.clear,
         ColorOp.get 7 8 9 1]).cache.map Prod.fst
      = (applyColorOps (ColorCacheState.init 1)
        [ColorOp.get 1 2 3 1, ColorOp.get 4 5 6 1, ColorOp.clear,
         ColorOp.get 7 8 9 1]).access_order.map Prod.fst :=
  c10_colorcache_invariants 1 (by norm_num)
    [ColorOp.get 1 2 3 1, ColorOp.get 4 5 6 1, ColorOp.clear,
     ColorOp.get 7 8 9 1]

/-- Setting a key makes lookup at that key return the written value. -/
lemma alist_get_set_self (l : List (ℕ × ℕ)) (k v : ℕ) :
    alist_get (alist_set l k v) k = some v := by
  induction l with
  | nil => simp [alist_set, alist_get]
  | cons q rest ih =>
    obtain ⟨k1, v1⟩ := q
    by_cases hk : k1 = k
    · simp [alist_set, alist_get, hk]
    · simp [alist_set, alist_get, hk, ih]

/-- Every key cached after a sequence of get_attributes calls either was
cached before or is the composite key of one of the calls. -/
lemma applyTriples_cache_keys (ts : List (ℤ × ℕ × Bool)) :
    ∀ (s : AttributeDictCacheState) (k : ℕ),
      k ∈ (applyTriples s ts).cache.map Prod.fst →
      k ∈ s.cache.map Prod.fst ∨
        ∃ u ∈ ts, k = make_key u.1 u.2.1 u.2.2 := by
  induction ts with
  | nil => exact fun s k h => Or.inl h
  | cons t rest ih =>
    intro s k h
    have happ : applyTriples s (t :: rest)
        = applyTriples ((s.get_attributes t.1 t.2.1 t.2.2).2) rest := rfl
    rw [happ] at h
    rcases ih _ k h with h1 | h1
    · cases hc : alist_get s.cache (make_key t.1 t.2.1 t.2.2) with
      | some d =>
        simp only [AttributeDictCacheState.get_attributes, hc] at h1
        exact Or.inl h1
      | none =>
        simp only [AttributeDictCacheState.get_attributes, hc,
          alist_set_fresh _ hc, List.map_append] at h1
        rcases List.mem_append.mp h1 with h2 | h2
        · exact Or.inl h2
        · refine Or.inr ⟨t, by simp, ?_⟩
          simpa using h2
    · obtain ⟨u, hu, hk⟩ := h1
      exact Or.inr ⟨u, by simp [hu], hk⟩

/-- Injectivity of the composite attribute key on the domain the mask
preserves: 31-bit font attributes and 32-bit colors. -/
lemma make_key_inj (fa1 fa2 : ℤ) (rgb1 rgb2 : ℕ) (ul1 ul2 : Bool)
    (h1 : 0 ≤ fa1) (h2 : fa1 < 2147483648) (h3 : 0 ≤ fa2)
    (h4 : fa2 < 2147483648) (h5 : rgb1 < 4294967296)
    (h6 : rgb2 < 4294967296)
    (hkey : make_key fa1 rgb1 ul1 = make_key fa2 rgb2 ul2) :
    fa1 = fa2 ∧ rgb1 = rgb2 ∧ ul1 = ul2 := by
  lift fa1 to ℕ using h1 with n1
  lift fa2 to ℕ using h3 with n2
  have hb1 : n1 < 2147483648 := by exact_mod_cast h2
  have hb2 : n2 < 2147483648 := by exact_mod_cast h4
  have hm1 : make_key (n1 : ℤ) rgb1 ul1
      = rgb1 + n1 * 4294967296 + (if ul1 then 9223372036854775808 else 0) := by
    simp only [make_key, Int.emod_eq_of_lt (by positivity) h2, Int.toNat_natCast]
  have hm2 : make_key (n2 : ℤ) rgb2 ul2
      = rgb2 + n2 * 4294967296 + (if ul2 then 9223372036854775808 else 0) := by
    simp only [make_key, Int.emod_eq_of_lt (by positivity) h4, Int.toNat_natCast]
  rw [hm1, hm2] at hkey
  have hnn : n1 = n2 ∧ rgb1 = rgb2 ∧ ul1 = ul2 := by
    cases ul1 <;> cases ul2 <;> simp only [Bool.false_eq_true, if_true,
      if_false, ite_true, ite_false] at hkey <;>
      first
        | exact ⟨by omega, by omega, rfl⟩
        | (exfalso; omega)
  exact ⟨by exact_mod_cast hnn.1, hnn.2.1, hnn.2.2⟩

/-- C5 counterexample: the triples (font_attributes -2147483648, color 0,
no underline) and (font_attributes 0, color 0, no underline) are distinct
but map to the same composite key, because the mask with 0x7FFFFFFF drops
bit 31 of the int; the second call is therefore a hit rather than a miss,
so a triple differing from all previously seen ones does not always
increment the miss counter. -/
theorem c5_attr_key_counterexample :
    (((-2147483648 : ℤ), (0 : ℕ), false) ≠ ((0 : ℤ), (0 : ℕ), false)) ∧
    make_key (-2147483648) 0 false = make_key 0 0 false ∧
    (((AttributeDictCacheState.init.get_attributes (-2147483648) 0
        false).2.get_attributes 0 0 false).2.misses = 1 ∧
     ((AttributeDictCacheState.init.get_attributes (-2147483648) 0
        false).2.get_attributes 0 0 false).2.hits = 1) := by
  refine ⟨by decide, by decide, by decide, by decide⟩

/-- C5 amended: identical triples always return the cached handle and
increment hits; and with font_attributes restricted to the 31-bit range
the mask preserves (nonnegative, below 2 to the 31) and colors to 32 bits,
distinct triples never alias to the same composite key, so a call whose
triple differs from all previously seen ones increments misses. -/
theorem c5_attr_cache_amended :
    (∀ (s : AttributeDictCacheState) (fa : ℤ) (rgb : ℕ) (ul : Bool),
      ((s.get_attributes fa rgb ul).2.get_attributes fa rgb ul).1
          = (s.get_attributes fa rgb ul).1 ∧
      ((s.get_attributes fa rgb ul).2.get_attributes fa rgb ul).2.hits
          = (s.get_attributes fa rgb ul).2.hits + 1) ∧
    (∀ (fa1 fa2 : ℤ) (rgb1 rgb2 : ℕ) (ul1 ul2 : Bool),
      0 ≤ fa1 → fa1 < 2147483648 → 0 ≤ fa2 → fa2 < 2147483648 →
      rgb1 < 4294967296 → rgb2 < 4294967296 →
      make_key fa1 rgb1 ul1 = make_key fa2 rgb2 ul2 →
      fa1 = fa2 ∧ rgb1 = rgb2 ∧ ul1 = ul2) ∧
    (∀ (ts : List (ℤ × ℕ × Bool)) (t : ℤ × ℕ × Bool),
      (∀ u ∈ t :: ts, 0 ≤ u.1 ∧ u.1 < 2147483648 ∧ u.2.1 < 4294967296) →
      t ∉ ts →
      ((applyTriples AttributeDictCacheState.init ts).get_attributes
          t.1 t.2.1 t.2.2).2.misses
        = (applyTriples AttributeDictCacheState.init ts).misses + 1) := by
  refine ⟨?_, ?_, ?_⟩
  · intro s fa rgb ul
    cases hc : alist_get s.cache (make_key fa rgb ul) with
    | some d =>
      simp [AttributeDictCacheState.get_attributes, hc]
    | none =>
      simp [AttributeDictCacheState.get_attributes, hc, alist_get_set_self]
  · exact make_key_inj
  · intro ts t hbound hnot
    have hnone : alist_get (applyTriples AttributeDictCacheState.init
        ts).cache (make_key t.1 t.2.1 t.2.2) = none := by
      rw [alist_get_eq_none]
      intro hmem
      rcases applyTriples_cache_keys ts _ _ hmem with h | h
      · simpa [AttributeDictCacheState.init] using h
      · obtain ⟨u, hu, hk⟩ := h
        have hbt := hbound t (by simp)
        have hbu := hbound u (by simp [hu])
        obtain ⟨hf1, hf2, hf3⟩ :=
          make_key_inj u.1 t.1 u.2.1 t.2.1 u.2.2 t.2.2
            hbu.1 hbu.2.1 hbt.1 hbt.2.1 hbu.2.2 hbt.2.2 hk.symm
        have : t = u := by
          obtain ⟨u1, u2, u3⟩ := u
          obtain ⟨t1, t2, t3⟩ := t
          simp only at hf1 hf2 hf3
          simp [hf1, hf2, hf3]
        exact hnot (this ▸ hu)
    simp only [AttributeDictCacheState.get_attributes, hnone]

/-- C5 witness: after one call with triple (0, color 5, no underline), a
call with the fresh triple (1, color 5, no underline) increments misses. -/
theorem c5_attr_cache_witness :
    ((applyTriples AttributeDictCacheState.init
        [((0 : ℤ), (5 : ℕ), false)]).get_attributes 1 5 false).2.misses
      = (applyTriples AttributeDictCacheState.init
        [((0 : ℤ), (5 : ℕ), false)]).misses + 1 :=
  c5_attr_cache_amended.2.2 [((0 : ℤ), (5 : ℕ), false)]
    ((1 : ℤ), (5 : ℕ), false) (by decide) (by decide)

/-- C6: in the character pass, a cell whose text is a single space closes
any open run and is excluded when its underline bit is clear; when the
underline bit is set (and the cell has a known color pair, no following
variation selector, and a font resolving the space) the space is included
in a run, as the open batch after the step contains it with the underline
flag set, so an underline can be drawn across it. -/
theorem c6_space_underline_run (cell : Cell) (next_cell : Option Cell)
    (color_pairs : List (ℤ × ColorPair)) (resolve : List ℕ → ℤ → ℤ)
    (row col rows : ℤ) (cw ch ox oy : ℚ) (st : CharRenderState)
    (hsp : cell.character = [32]) :
    (testBit1 cell.attributes = false →
      charStep cell next_cell color_pairs resolve row col rows cw ch ox oy st
        = (flushBatch st, 0)) ∧
    (testBit1 cell.attributes = true →
      (∀ nc, next_cell = some nc → isVariationSelector nc.character = false) →
      ∀ colors, lookupColorPair color_pairs cell.color_pair = some colors →
      resolve [32] (cell.attributes % 2) ≠ -2 →
      ∃ b, (charStep cell next_cell color_pairs resolve row col rows cw ch ox
          oy st).1.current_batch = some b ∧
        b.underline = true ∧
        (b.text = [32] ∨
          ∃ prev, st.current_batch = some prev ∧ b.text = prev.text ++ [32])) := by
  constructor
  · intro hul
    simp only [charStep, hsp]
    rw [if_neg (by simp), if_pos ⟨trivial, hul⟩]
  · intro hul hnvs colors hcp hres
    have hnone : charStep cell next_cell color_pairs resolve row col rows cw
        ch ox oy st
        = charStep cell none color_pairs resolve row col rows cw ch ox oy st := by
      cases next_cell with
      | none => rfl
      | some nc => simp [charStep, hnvs nc rfl]
    rw [hnone]
    cases hcur : st.current_batch with
    | none =>
      simp only [charStep, hsp, hcp, hcur]
      rw [if_neg (by simp), if_neg (by simp [hul]), if_neg hres]
      split_ifs <;> exact ⟨_, rfl, hul, Or.inl rfl⟩
    | some batch =>
      simp only [charStep, hsp, hcp, hcur]
      rw [if_neg (by simp), if_neg (by simp [hul]), if_neg hres]
      split_ifs <;>
        first
          | exact ⟨_, rfl, hul, Or.inl rfl⟩
          | (refine ⟨_, rfl, ?_, Or.inr ⟨batch, rfl, rfl⟩⟩
             rename_i hbig hf
             exact hbig.2.1.2.2.trans hul)

/-- C6 witness: a plain space with attributes 0 is excluded and flushes;
a space with the underline bit (attributes 2) opens a run containing the
space with underline set. -/
theorem c6_space_underline_witness :
    charStep ⟨[32], 0, 0, false⟩ none [((0 : ℤ), ⟨1, 2⟩)] (fun _ _ => -1)
        0 0 1 8 16 0 0 ⟨none, []⟩ = (flushBatch ⟨none, []⟩, 0) ∧
    ∃ b, (charStep ⟨[32], 0, 2, false⟩ none [((0 : ℤ), ⟨1, 2⟩)]
          (fun _ _ => -1) 0 0 1 8 16 0 0 ⟨none, []⟩).1.current_batch = some b ∧
      b.underline = true ∧
      (b.text = [32] ∨ ∃ prev,
        (⟨none, []⟩ : CharRenderState).current_batch = some prev ∧
        b.text = prev.text ++ [32]) := by
  constructor
  · exact (c6_space_underline_run ⟨[32], 0, 0, false⟩ none
      [((0 : ℤ), ⟨1, 2⟩)] (fun _ _ => -1) 0 0 1 8 16 0 0 ⟨none, []⟩ rfl).1
      (by decide)
  · exact (c6_space_underline_run ⟨[32], 0, 2, false⟩ none
      [((0 : ℤ), ⟨1, 2⟩)] (fun _ _ => -1) 0 0 1 8 16 0 0 ⟨none, []⟩ rfl).2
      (by decide) (by simp) ⟨1, 2⟩ (by decide) (by decide)

/-- C7 counterexample: on a cell referencing the missing color pair 5, the
background step leaves the batcher completely unchanged: the open batch
stays open and no batch is pushed, so the background pass does not flush
the open batch at the skip (the character pass does; the open background
batch is closed later by the adjacency test or at row end). -/
theorem c7_missing_pair_counterexample :
    bgStep ⟨[66], 5, 0, false⟩ 0 1 3 3 8 16 0 0 [((0 : ℤ), ⟨1, 7⟩)]
        (RectangleBatcher.init.add_cell 0 0 8 16 7)
      = RectangleBatcher.init.add_cell 0 0 8 16 7 ∧
    (RectangleBatcher.init.add_cell 0 0 8 16 7).current_batch.isSome = true ∧
    (RectangleBatcher.init.add_cell 0 0 8 16 7).batches = [] :=
  ⟨rfl, rfl, rfl⟩

/-- C7 amended: a cell whose color pair id is not in the table is skipped
by both passes and the frame continues: the background step returns the
batcher unchanged (leaving any open batch open, to be closed by the later
adjacency test or finish_row), and the character step (for a cell which is
not otherwise skipped) flushes the open run, draws nothing for the cell,
and moves on. -/
theorem c7_missing_pair_skips_cell :
    (∀ (cell : Cell) (row col rows cols : ℤ) (cw ch ox oy : ℚ)
       (cps : List (ℤ × ColorPair)) (b : RectangleBatcher),
      lookupColorPair cps cell.color_pair = none →
      bgStep cell row col rows cols cw ch ox oy cps b = b) ∧
    (∀ (cell : Cell) (next_cell : Option Cell) (cps : List (ℤ × ColorPair))
       (resolve : List ℕ → ℤ → ℤ) (row col rows : ℤ) (cw ch ox oy : ℚ)
       (st : CharRenderState),
      cell.character ≠ [] →
      ¬(cell.character = [32] ∧ testBit1 cell.attributes = false) →
      lookupColorPair cps cell.color_pair = none →
      charStep cell next_cell cps resolve row col rows cw ch ox oy st
        = (flushBatch st, 0)) := by
  constructor
  · intro cell row col rows cols cw ch ox oy cps b h
    simp [bgStep, h]
  · intro cell next_cell cps resolve row col rows cw ch ox oy st h1 h2 h3
    simp only [charStep, h3]
    rw [if_neg h1, if_neg h2]

/-- C7 witness: a letter cell with the unknown color pair 5 leaves the
empty batcher unchanged in the background pass and yields a flush-and-skip
in the character pass. -/
theorem c7_missing_pair_witness :
    bgStep ⟨[65], 5, 0, false⟩ 1 1 3 3 8 16 0 0 [((0 : ℤ), ⟨1, 7⟩)]
        RectangleBatcher.init = RectangleBatcher.init ∧
    charStep ⟨[65], 5, 0, false⟩ none [((0 : ℤ), ⟨1, 7⟩)] (fun _ _ => -1)
        1 1 3 8 16 0 0 ⟨none, []⟩ = (flushBatch ⟨none, []⟩, 0) :=
  ⟨c7_missing_pair_skips_cell.1 ⟨[65], 5, 0, false⟩ 1 1 3 3 8 16 0 0
      [((0 : ℤ), ⟨1, 7⟩)] RectangleBatcher.init (by decide),
   c7_missing_pair_skips_cell.2 ⟨[65], 5, 0, false⟩ none
      [((0 : ℤ), ⟨1, 7⟩)] (fun _ _ => -1) 1 1 3 8 16 0 0 ⟨none, []⟩
      (by decide) (by decide) (by decide)⟩

/-- Traversal succeeds exactly when every element parses. -/
lemma mapExcept_ok {α β : Type} (f : α → Except String β) (g : α → Bool)
    (hfg : ∀ x, exceptOk (f x) = g x) (l : List α) :
    exceptOk (mapExcept f l) = l.all g := by
  induction l with
  | nil => rfl
  | cons x xs ih =>
    have hx2 := hfg x
    simp only [mapExcept, List.all_cons]
    cases hx : f x with
    | ok y =>
      rw [hx] at hx2
      cases hxs : mapExcept f xs with
      | ok ys =>
        rw [hxs] at ih
        simp only [exceptOk] at hx2 ih ⊢
        rw [← hx2, ← ih]
        rfl
      | error e =>
        rw [hxs] at ih
        simp only [exceptOk] at hx2 ih ⊢
        rw [← ih]
        simp
    | error e =>
      rw [hx] at hx2
      simp only [exceptOk] at hx2 ⊢
      rw [← hx2]
      simp

/-- Cell parsing succeeds exactly on well-formed cell tuples. -/
lemma parse_cell_ok (v : PyVal) : exceptOk (parse_cell v) = cellOK v := by
  cases v <;> try rfl
  case pyTuple xs =>
    rcases xs with _ | ⟨c, xs⟩
    · rfl
    rcases xs with _ | ⟨p, xs⟩
    · cases c <;> rfl
    rcases xs with _ | ⟨a, xs⟩
    · cases c <;> rfl
    rcases xs with _ | ⟨w, xs⟩
    · cases c <;> rfl
    rcases xs with _ | ⟨e, xs⟩
    · cases c <;> try rfl
      case pyStr s =>
        cases hp : asLong p <;> cases ha : asLong a <;>
          simp [parse_cell, cellOK, hp, ha, exceptOk]
    · cases c <;> rfl

/-- Row parsing succeeds exactly on well-formed rows. -/
lemma parse_row_ok (v : PyVal) (cols : ℤ) :
    exceptOk (parse_row v cols) = rowOK v cols := by
  cases v <;> try rfl
  case pyList cells =>
    simp only [parse_row, rowOK]
    split_ifs with h
    · rw [mapExcept_ok parse_cell cellOK parse_cell_ok]
      simp [h]
    · simp [exceptOk, h]

/-- Grid parsing succeeds exactly on well-formed grids. -/
lemma parse_grid_ok (v : PyVal) (rows cols : ℤ) :
    exceptOk (parse_grid v rows cols) = gridOK v rows cols := by
  cases v <;> try rfl
  case pyList rws =>
    simp only [parse_grid, gridOK]
    split_ifs with h
    · rw [mapExcept_ok (fun r => parse_row r cols) (fun r => rowOK r cols)
        (fun r => parse_row_ok r cols)]
      simp [h]
    · simp [exceptOk, h]

/-- RGB parsing succeeds exactly on well-formed RGB tuples. -/
lemma parse_rgb_ok (v : PyVal) : exceptOk (parse_rgb v) = rgbOK v := by
  cases v <;> try rfl
  case pyTuple xs =>
    rcases xs with _ | ⟨r, xs⟩
    · rfl
    rcases xs with _ | ⟨g, xs⟩
    · rfl
    rcases xs with _ | ⟨b, xs⟩
    · rfl
    rcases xs with _ | ⟨e, xs⟩
    · cases hr : asLong r <;> cases hg : asLong g <;> cases hb : asLong b <;>
        simp only [parse_rgb, rgbOK, hr, hg, hb, exceptOk] <;>
        first
          | rfl
          | (split_ifs with h <;> simp [exceptOk, h])
    · rfl

/-- Color-pair-value parsing succeeds exactly on pairs of RGB tuples. -/
lemma parse_color_pair_value_ok (v : PyVal) :
    exceptOk (parse_color_pair_value v) = colorPairValOK v := by
  cases v <;> try rfl
  case pyTuple xs =>
    rcases xs with _ | ⟨fg, xs⟩
    · rfl
    rcases xs with _ | ⟨bg, xs⟩
    · rfl
    rcases xs with _ | ⟨e, xs⟩
    · have h1 := parse_rgb_ok fg
      have h2 := parse_rgb_ok bg
      cases hf : parse_rgb fg <;> rw [hf] at h1 <;>
        cases hg : parse_rgb bg <;> rw [hg] at h2 <;>
        simp only [parse_color_pair_value, colorPairValOK, hf, hg,
          exceptOk] at h1 h2 ⊢ <;>
        rw [← h1, ← h2] <;> rfl
    · rfl

/-- Color-table parsing succeeds exactly on well-formed tables. -/
lemma parse_color_pairs_ok (v : PyVal) :
    exceptOk (parse_color_pairs v) = colorPairsOK v := by
  cases v <;> try rfl
  case pyDict entries =>
    simp only [parse_color_pairs, colorPairsOK]
    refine mapExcept_ok _ _ (fun e => ?_) entries
    cases he : asLong e.1 with
    | none => simp [he, exceptOk]
    | some pid =>
      have h2 := parse_color_pair_value_ok e.2
      cases hv : parse_color_pair_value e.2 <;> rw [hv] at h2 <;>
        simp only [he, hv, exceptOk, Option.isSome] at h2 ⊢ <;>
        rw [← h2] <;> rfl

/-- A well-formed grid value is a Python list. -/
lemma gridOK_isList {v : PyVal} {rows cols : ℤ}
    (h : gridOK v rows cols = true) : v.isList = true := by
  cases v <;> simp [gridOK, PyVal.isList] at h ⊢

/-- A well-formed color table is a Python dict. -/
lemma colorPairsOK_isDict {v : PyVal} (h : colorPairsOK v = true) :
    v.isDict = true := by
  cases v <;> simp [colorPairsOK, PyVal.isDict] at h ⊢

/-- C8: the validation-and-parsing front half of render_frame accepts a
frame exactly when the grid dimensions are positive and at most 10000, the
cell dimensions are positive, the grid is a well-shaped list of lists of
valid cell tuples, the color table is a well-formed dictionary, and the
dirty rect is a 4-tuple of numbers; any violation is reported as an error
before any rendering. -/
theorem c8_render_frame_validation (context : ℕ) (grid cps rect : PyVal)
    (cw ch : ℚ) (rows cols : ℤ) (hctx : context ≠ 0) :
    exceptOk (render_frame_validate context grid cps rect cw ch rows cols)
        = true
      ↔ (0 < rows ∧ rows ≤ 10000 ∧ 0 < cols ∧ cols ≤ 10000 ∧
         0 < cw ∧ 0 < ch ∧ gridOK grid rows cols = true ∧
         colorPairsOK cps = true ∧ dirtyRectOK rect = true) := by
  simp only [render_frame_validate]
  rw [if_neg hctx]
  split_ifs with h1 h2 h3 h4 h5
  · simp only [exceptOk, Bool.false_eq_true, false_iff]
    rintro ⟨a, b, c, d, _⟩
    omega
  · simp only [exceptOk, Bool.false_eq_true, false_iff]
    rintro ⟨a, b, c, d, _⟩
    omega
  · simp only [exceptOk, Bool.false_eq_true, false_iff]
    rintro ⟨_, _, _, _, e, f, _⟩
    rcases h3 with h | h <;> linarith
  · simp only [exceptOk, Bool.false_eq_true, false_iff]
    rintro ⟨_, _, _, _, _, _, hg, _⟩
    rw [gridOK_isList hg] at h4
    simp at h4
  · simp only [exceptOk, Bool.false_eq_true, false_iff]
    rintro ⟨_, _, _, _, _, _, _, hcps, _⟩
    rw [colorPairsOK_isDict hcps] at h5
    simp at h5
  · cases rect
    all_goals try (simp [exceptOk, dirtyRectOK]; done)
    rename_i xs
    · rcases xs with _ | ⟨a, xs⟩
      · simp [exceptOk, dirtyRectOK]
      rcases xs with _ | ⟨b, xs⟩
      · simp [exceptOk, dirtyRectOK]
      rcases xs with _ | ⟨c, xs⟩
      · simp [exceptOk, dirtyRectOK]
      rcases xs with _ | ⟨d, xs⟩
      · simp [exceptOk, dirtyRectOK]
      rcases xs with _ | ⟨e, xs⟩
      · dsimp only
        split_ifs with hnum
        · have hg := parse_grid_ok grid rows cols
          have hc := parse_color_pairs_ok cps
          cases hpg : parse_grid grid rows cols with
          | error e1 =>
            rw [hpg] at hg
            simp only [exceptOk, Bool.false_eq_true, false_iff] at hg ⊢
            rintro ⟨_, _, _, _, _, _, hgr, _⟩
            rw [hgr] at hg
            simp at hg
          | ok gval =>
            rw [hpg] at hg
            cases hpc : parse_color_pairs cps with
            | error e2 =>
              rw [hpc] at hc
              simp only [exceptOk, Bool.false_eq_true, false_iff] at hc ⊢
              rintro ⟨_, _, _, _, _, _, _, hcps, _⟩
              rw [hcps] at hc
              simp at hc
            | ok cval =>
              rw [hpc] at hc
              simp only [exceptOk] at hg hc ⊢
              have h3p := not_or.mp h3
              constructor
              · intro _
                exact ⟨by omega, by omega, by omega, by omega,
                  not_le.mp h3p.1, not_le.mp h3p.2, hg.symm, hc.symm,
                  by simp [dirtyRectOK, hnum.1, hnum.2.1, hnum.2.2.1,
                    hnum.2.2.2]⟩
              · intro _
                trivial
        · simp only [exceptOk, Bool.false_eq_true, false_iff]
          rintro ⟨_, _, _, _, _, _, _, _, hd⟩
          simp only [dirtyRectOK, Bool.and_eq_true] at hd
          exact hnum ⟨hd.1.1.1, hd.1.1.2, hd.1.2, hd.2⟩
      · simp [exceptOk, dirtyRectOK]

/-- C8 witness: a concrete 1 by 1 frame with a valid grid, color table and
dirty rect passes validation. -/
theorem c8_render_frame_validation_witness :
    exceptOk (render_frame_validate 1
      (PyVal.pyList [PyVal.pyList [PyVal.pyTuple
        [PyVal.pyStr [65], PyVal.pyInt 0, PyVal.pyInt 0, PyVal.pyBool false]]])
      (PyVal.pyDict [(PyVal.pyInt 0, PyVal.pyTuple
        [PyVal.pyTuple [PyVal.pyInt 255, PyVal.pyInt 255, PyVal.pyInt 255],
         PyVal.pyTuple [PyVal.pyInt 0, PyVal.pyInt 0, PyVal.pyInt 0]])])
      (PyVal.pyTuple [PyVal.pyInt 0, PyVal.pyInt 0, PyVal.pyFloat 8,
        PyVal.pyFloat 16])
      8 16 1 1) = true := by
  refine (c8_render_frame_validation 1 _ _ _ 8 16 1 1 (by norm_num)).mpr
    ⟨by norm_num, by norm_num, by norm_num, by norm_num, by norm_num,
     by norm_num, by decide, by decide, by decide⟩

end TfmRender